import Mathlib

/-! # Selection store, colour assignment, conflict layout and import/export of `src/index.js`

The JavaScript program keeps one global object `selectedMeetings`.  Here it is an explicit
value that every operation receives and returns.  JavaScript objects are insertion-ordered
association lists (the keys used by the program are never integer-like, so the enumeration
order of `for ... in` is the insertion order).  Times and days are integers; pixel
geometry is computed over the rationals.
-/

namespace Ttbp

/-! ## JavaScript objects -/

/-- Property read `obj[k]`; `none` stands for `undefined`. -/
def jsGet {α : Type} : List (String × α) → String → Option α
  | [], _ => none
  | (k', v) :: o, k => if k' = k then some v else jsGet o k

/-- Property write `obj[k] = v`: an existing key keeps its place, a new key goes last. -/
def jsSet {α : Type} : List (String × α) → String → α → List (String × α)
  | [], k, v => [(k, v)]
  | (k', v') :: o, k, v => if k' = k then (k, v) :: o else (k', v') :: jsSet o k v

/-- Property removal `delete obj[k]`. -/
def jsDelete {α : Type} (o : List (String × α)) (k : String) : List (String × α) :=
  o.filter (fun p => decide (p.1 ≠ k))

/-- Keys of an object are pairwise different. -/
def UniqueKeys {α : Type} (o : List (String × α)) : Prop := (o.map Prod.fst).Nodup

/-! ## Data model -/

/-- The object literal stored for a selected meeting (lines 454-462 and 497-505). -/
structure Meeting where
  sessionCode : String
  sectionCode : String
  start : Int
  end_ : Int
  day : Int
  term : String
  building : String
deriving DecidableEq, Repr

/-- The `_color` object: term name to colour string. -/
abbrev ColorObj := List (String × String)

/-- A property value of a course entry: a meeting record, or the colour object. -/
inductive Val where
  | meeting (m : Meeting)
  | colors (c : ColorObj)
deriving DecidableEq, Repr

/-- One course entry `selectedMeetings[courseCode]`: meeting ids and `_color` share one object. -/
abbrev Entry := List (String × Val)

/-- The global `selectedMeetings`. -/
abbrev Store := List (String × Entry)

/-- Both levels of the store have pairwise different keys, as every JavaScript object has. -/
def StoreWF (store : Store) : Prop :=
  UniqueKeys store ∧ ∀ p ∈ store, UniqueKeys p.2

/-! ## Colours (lines 5-43) -/

def COURSE_COLORS : List String :=
  ["#992626", "#F28B30", "#F2B63D", "#C1D998", "#86B3B2", "#A574A4"]

/-- The value of `entry._color`.  A meeting record found under `_color` is an object
without colour slots. -/
def colorObjOf (entry : Entry) : Option ColorObj :=
  match jsGet entry "_color" with
  | some (Val.colors c) => some c
  | some (Val.meeting _) => some []
  | none => none

/-- The value of `colorObj[term]` when it is truthy (a non-empty string). -/
def slot (colorObj : ColorObj) (term : String) : Option String :=
  match jsGet colorObj term with
  | some c => if c = "" then none else some c
  | none => none

/-- The colour shown for a course in a term: `entry._color?.[term]` when truthy. -/
def entryColor (entry : Entry) (term : String) : Option String :=
  match colorObjOf entry with
  | some colorObj => slot colorObj term
  | none => none

/-- What one course contributes to the set built by `getUsedColors` (lines 10-17). -/
def usedOfEntry (term : String) (entry : Entry) : List String :=
  match colorObjOf entry with
  | none => []
  | some colorObj =>
    if term = "Y" then
      (slot colorObj "fall").toList ++ (slot colorObj "winter").toList
    else (slot colorObj term).toList

def getUsedColors (store : Store) (term : String) : List String :=
  store.flatMap (fun p => usedOfEntry term p.2)

/-- The random draw `Math.floor(Math.random() * available.length)` is `r % available.length`
for an arbitrary natural `r`. -/
def getAvailableColor (store : Store) (term : String) (r : Nat) : Option String :=
  let used := getUsedColors store term
  let available := COURSE_COLORS.filter (fun c => !(used.contains c))
  if available.length > 0 then available[r % available.length]? else none

/-- The body of `ensureCourseColor` once `selectedMeetings[courseCode]` has been read. -/
def ensureEntryColor (store : Store) (entry : Entry) (term sessionCode : String) (r : Nat) :
    Entry :=
  let colorObj := (colorObjOf entry).getD []
  if sessionCode = "Y" then
    if (slot colorObj "fall").isNone && (slot colorObj "winter").isNone then
      let sharedColor := (getAvailableColor store "Y" r).getD "#999999"
      jsSet entry "_color" (Val.colors (jsSet (jsSet colorObj "fall" sharedColor) "winter" sharedColor))
    else jsSet entry "_color" (Val.colors colorObj)
  else
    if (slot colorObj term).isNone then
      let color := getAvailableColor store term r
      jsSet entry "_color" (Val.colors (jsSet colorObj term (color.getD "#999999")))
    else jsSet entry "_color" (Val.colors colorObj)

/-- `ensureCourseColor(courseCode, term, sessionCode)`; `none` is the TypeError raised when
the course is not in the store. -/
def ensureCourseColor (store : Store) (courseCode term sessionCode : String) (r : Nat) :
    Option Store :=
  match jsGet store courseCode with
  | none => none
  | some entry => some (jsSet store courseCode (ensureEntryColor store entry term sessionCode r))

/-- `cleanupCourseIfEmpty(courseCode)` (lines 45-51). -/
def cleanupCourseIfEmpty (store : Store) (courseCode : String) : Store :=
  let entries := (jsGet store courseCode).getD []
  let nonMeta := entries.filter (fun p => decide (p.1 ≠ "_color"))
  if nonMeta.length = 0 then jsDelete store courseCode else store

/-! ## Conflict and layout engine (lines 78-80 and 521-625) -/

/-- One element of `allBlocks` (lines 535-544): the meeting record spread into the block,
with the key it was stored under, the owning course and that course's colour. -/
structure Block where
  meeting : Meeting
  id : String
  courseCode : String
  color : String
deriving DecidableEq, Repr

def Block.start (b : Block) : Int := b.meeting.start

def Block.end_ (b : Block) : Int := b.meeting.end_

def Block.term (b : Block) : String := b.meeting.term

/-- Field `dayIndex: day - 1`. -/
def Block.dayIndex (b : Block) : Int := b.meeting.day - 1

def timetableStartMs : Int := 8 * 3600000

def cellHeightPx : ℚ := 25

/-- Field `startOffset: (start - timetableStartMs) / 1800000`. -/
def Block.startOffset (b : Block) : ℚ := ((b.start - timetableStartMs : Int) : ℚ) / 1800000

/-- Field `duration: (end - start) / 1800000`. -/
def Block.duration (b : Block) : ℚ := ((b.end_ - b.start : Int) : ℚ) / 1800000

/-- `isOverlap(a, b)` (lines 78-80). -/
def isOverlap (a b : Block) : Bool := decide (max a.start b.start < min a.end_ b.end_)

/-- The blocks of one course (lines 529-545): `_color` is skipped, every other key is read
as a meeting.  A value that is not a meeting record has no `term`; it is kept as `none`
and makes the distribution step below fail, as the indexing `byTermAndDay[undefined]` does. -/
def entryBlocks (courseCode : String) (entry : Entry) : List (Option Block) :=
  (entry.filter (fun p => decide (p.1 ≠ "_color"))).map (fun p =>
    match p.2 with
    | Val.meeting m =>
      some { meeting := m, id := p.1, courseCode := courseCode,
             color := (entryColor entry m.term).getD "#999999" }
    | Val.colors _ => none)

/-- The list `allBlocks` after the collection loop (lines 528-546). -/
def allBlocks (store : Store) : List (Option Block) :=
  store.flatMap (fun p => entryBlocks p.1 p.2)

/-- The object `byTermAndDay`: five day buckets for each of the two terms. -/
structure Table where
  fall : List (List Block)
  winter : List (List Block)
deriving DecidableEq, Repr

def emptyTable : Table := { fall := [[], [], [], [], []], winter := [[], [], [], [], []] }

/-- `days[dayIndex].push(block)`; `none` when `days[dayIndex]` is `undefined`. -/
def pushDay (days : List (List Block)) (dayIndex : Int) (block : Block) :
    Option (List (List Block)) :=
  if 0 ≤ dayIndex ∧ dayIndex < days.length then
    some (days.modify (fun bucket => bucket ++ [block]) dayIndex.toNat)
  else none

/-- One round of the `forEach` of line 550: `byTermAndDay[block.term][block.dayIndex].push(block)`;
`none` is the TypeError of an unknown term or a day outside the five buckets. -/
def pushBlock (table : Table) : Option Block → Option Table
  | none => none
  | some block =>
    if block.term = "fall" then
      (pushDay table.fall block.dayIndex block).map (fun d => { table with fall := d })
    else if block.term = "winter" then
      (pushDay table.winter block.dayIndex block).map (fun d => { table with winter := d })
    else none

def byTermAndDay (blocks : List (Option Block)) : Option Table :=
  blocks.foldlM pushBlock emptyTable

/-- `byTermAndDay[term][dayIndex]` for the two terms the loop of line 565 visits. -/
def Table.bucket (table : Table) (term : String) (dayIndex : Nat) : List Block :=
  if term = "fall" then table.fall.getD dayIndex []
  else if term = "winter" then table.winter.getD dayIndex []
  else []

/-- The inner loop of lines 573-582: the block joins the first group that has a member
overlapping it, else it starts a new group at the end. -/
def addToGroups (block : Block) : List (List Block) → List (List Block)
  | [] => [[block]]
  | group :: rest =>
    if group.any (fun b => isOverlap b block) then (group ++ [block]) :: rest
    else group :: addToGroups block rest

/-- Lines 568-583: stable sort by `start`, then the greedy grouping pass. -/
def conflictGroups (blocks : List Block) : List (List Block) :=
  (blocks.insertionSort (fun a b => a.start ≤ b.start)).foldl
    (fun groups block => addToGroups block groups) []

/-- The absolutely positioned `div` appended for one block (lines 587-621). -/
structure Rect where
  block : Block
  isConflict : Bool
  color : String
  textColor : String
  top : ℚ
  height : ℚ
  left : ℚ
  width : ℚ
deriving DecidableEq, Repr

/-- The callback of `group.forEach((block, index) => ...)`; `clientWidth` gives
`container.clientWidth` for a container id, `size` is `group.length`. -/
def blockRect (clientWidth : String → ℚ) (dayIndex size index : Nat) (block : Block) : Rect :=
  let columnWidth := (clientWidth (block.term ++ "-timetable") - 50) / 5
  let isConflict := decide (size > 1)
  let color := if isConflict then "#CC3939" else block.color
  let textColor := if color = "#992626" ∨ color = "#CC3939" then "#FFFDE6" else "#131210"
  { block := block
    isConflict := isConflict
    color := color
    textColor := textColor
    top := block.startOffset * cellHeightPx + cellHeightPx
    height := block.duration * cellHeightPx - 1
    left := 50 + ((dayIndex : ℚ) * columnWidth + (index : ℚ) * (columnWidth / (size : ℚ)))
    width := columnWidth / (size : ℚ) - 1 }

/-- The rectangles of the members of one group from position `index` on. -/
def rectsFrom (clientWidth : String → ℚ) (dayIndex size : Nat) : Nat → List Block → List Rect
  | _, [] => []
  | index, block :: rest =>
    blockRect clientWidth dayIndex size index block ::
      rectsFrom clientWidth dayIndex size (index + 1) rest

def groupRects (clientWidth : String → ℚ) (dayIndex : Nat) (group : List Block) : List Rect :=
  rectsFrom clientWidth dayIndex group.length 0 group

/-- What is drawn for one term and weekday (lines 567-622). -/
def cellRects (clientWidth : String → ℚ) (table : Table) (term : String) (dayIndex : Nat) :
    List Rect :=
  (conflictGroups (table.bucket term dayIndex)).flatMap (groupRects clientWidth dayIndex)

/-- `renderSelectedMeetings()`: the rectangles in the order they are appended, or `none`
when the function throws. -/
def renderSelectedMeetings (store : Store) (clientWidth : String → ℚ) : Option (List Rect) :=
  match byTermAndDay (allBlocks store) with
  | none => none
  | some table =>
    some (["fall", "winter"].flatMap (fun term =>
      (List.range 5).flatMap (fun dayIndex => cellRects clientWidth table term dayIndex)))

/-! ## Save and load (lines 650-682) -/

/-- `exportSelectedMeetings()`: the text written to the field, or `none` when the alert
`Failed to export` is shown.  `encode` stands for `btoa(JSON.stringify(...))`, which is not
part of the program; `none` is its exception. -/
def exportSelectedMeetings (encode : Store → Option String) (store : Store) : Option String :=
  encode store

/-- The names of the properties that every object inherits from `Object.prototype`. -/
def prototypeKeys : List String :=
  ["constructor", "__defineGetter__", "__defineSetter__", "hasOwnProperty",
   "__lookupGetter__", "__lookupSetter__", "isPrototypeOf", "propertyIsEnumerable",
   "toString", "valueOf", "__proto__", "toLocaleString"]

/-- `Object.assign(target, source)` on a course entry: the own properties of `source` are
written to `target` in order, each with an ordinary property write.  A write to `__proto__`
reaches the inherited setter: it replaces the prototype of `target` and adds no own
property.  Entries record own properties only, so that round leaves the entry as it is. -/
def objectAssign (target source : Entry) : Entry :=
  source.foldl (fun t q => if q.1 = "__proto__" then t else jsSet t q.1 q.2) target

/-- One round of the merge loop (lines 666-669).  The read `selectedMeetings[courseCode]`
of line 666 finds own and inherited properties.  For a course code that is not in the store
and names an inherited property the read gives a built-in object: no course is created and
`Object.assign` writes onto that built-in.  With nothing to write the store stays as it is;
with something to write the result is `none`: what a write onto a built-in object does to
the rest of the run is not followed here. -/
def mergeCourse (store : Store) (courseCode : String) (importedEntry : Entry) :
    Option Store :=
  match jsGet store courseCode with
  | some target => some (jsSet store courseCode (objectAssign target importedEntry))
  | none =>
    if courseCode ∈ prototypeKeys then
      if importedEntry = [] then some store else none
    else
      some (jsSet (jsSet store courseCode []) courseCode (objectAssign [] importedEntry))

/-- The merge loop `for (const courseCode in imported)` (lines 665-670); `none` as in
`mergeCourse`. -/
def mergeImported (store imported : Store) : Option Store :=
  imported.foldlM (fun s p => mergeCourse s p.1 p.2) store

/-- Some imported entry has the key `__proto__`, whose write replaces a prototype. -/
def replacesPrototype (imported : Store) : Bool :=
  imported.any (fun p => p.2.any (fun q => decide (q.1 = "__proto__")))

/-- How `importSelectedMeetings` ends: normally, or in the `catch` with the alert
`Invalid import`; `outsideModel` stands for a call that writes onto a built-in object or
replaces the prototype of an entry, whose continuation is not followed here. -/
inductive ImportOutcome where
  | done
  | invalidImport
  | outsideModel
deriving DecidableEq, Repr

/-- `importSelectedMeetings()` on the field text: the store afterwards and the outcome.
`decode` stands for `JSON.parse(atob(...))`, with `none` for an exception of either; the
marking of the listing pane between merge and redraw does not touch the store.  When the
merge loop writes onto a built-in object the store given back is the one before the call
and says nothing about the store after it; when only a prototype was replaced the store
given back holds the own properties after the merge and the redraw is not followed. -/
def importSelectedMeetings (decode : String → Option Store) (clientWidth : String → ℚ)
    (store : Store) (text : String) : Store × ImportOutcome :=
  match decode text with
  | none => (store, ImportOutcome.invalidImport)
  | some imported =>
    match mergeImported store imported with
    | none => (store, ImportOutcome.outsideModel)
    | some merged =>
      if replacesPrototype imported then (merged, ImportOutcome.outsideModel)
      else
        match renderSelectedMeetings merged clientWidth with
        | none => (merged, ImportOutcome.invalidImport)
        | some _ => (merged, ImportOutcome.done)

/-! ## Predicates and helper functions used in the statements -/

/-- Members of different groups never overlap. -/
def Separated (groups : List (List Block)) : Prop :=
  groups.Pairwise (fun g h => ∀ x ∈ g, ∀ y ∈ h, isOverlap x y = false)

/-- Every member of every group starts no later than `b`. -/
def StartsBefore (groups : List (List Block)) (b : Block) : Prop :=
  ∀ g ∈ groups, ∀ x ∈ g, x.start ≤ b.start

/-- The grouping pass from an arbitrary starting list of groups. -/
def groupFrom (groups : List (List Block)) (blocks : List Block) : List (List Block) :=
  blocks.foldl (fun gs block => addToGroups block gs) groups

/-- The collected blocks of one term and weekday, in collection order. -/
def dayBlocks (blocks : List (Option Block)) (term : String) (dayIndex : Nat) : List Block :=
  (blocks.filterMap id).filter
    (fun b => decide (b.term = term ∧ b.dayIndex = (dayIndex : Int)))

/-- A stored value that the layout engine can place: a meeting record whose term is
`fall` or `winter` and whose day is 1 to 5. -/
def validVal : Val → Bool
  | Val.meeting m => decide ((m.term = "fall" ∨ m.term = "winter") ∧ 1 ≤ m.day ∧ m.day ≤ 5)
  | Val.colors _ => false

/-- Every value stored under a key other than `_color` is a placeable meeting. -/
def ValidMeetings (store : Store) : Prop :=
  ∀ p ∈ store, ∀ q ∈ p.2, q.1 ≠ "_color" → validVal q.2 = true

/-- A block that has a bucket in `byTermAndDay`. -/
def PlaceableBlock (ob : Option Block) : Prop :=
  ∃ b, ob = some b ∧ (b.term = "fall" ∨ b.term = "winter") ∧ 0 ≤ b.dayIndex ∧ b.dayIndex < 5

/-! ## Concrete stores used as test inputs -/

/-- Monday 10:00-11:00 in the fall term. -/
def meetingA : Meeting :=
  { sessionCode := "F", sectionCode := "LEC0101", start := 36000000, end_ := 39600000,
    day := 1, term := "fall", building := "BA" }

/-- Monday 10:30-11:30 in the fall term. -/
def meetingB : Meeting :=
  { sessionCode := "F", sectionCode := "LEC0201", start := 37800000, end_ := 41400000,
    day := 1, term := "fall", building := "MP" }

/-- Two courses with one selected meeting each; the two meetings overlap. -/
def storeAB : Store :=
  [("CSC108H1", [("_color", Val.colors [("fall", "#992626")]),
                 ("CSC108H1-LEC0101-fall-0", Val.meeting meetingA)]),
   ("MAT137Y1", [("_color", Val.colors [("fall", "#F28B30")]),
                 ("MAT137Y1-LEC0201-fall-0", Val.meeting meetingB)])]

def blockA : Block :=
  { meeting := meetingA, id := "CSC108H1-LEC0101-fall-0", courseCode := "CSC108H1",
    color := "#992626" }

def blockB : Block :=
  { meeting := meetingB, id := "MAT137Y1-LEC0201-fall-0", courseCode := "MAT137Y1",
    color := "#F28B30" }

/-- Every group with more than one member links each member to another member that
overlaps it. -/
def Linked (groups : List (List Block)) : Prop :=
  ∀ g ∈ groups, 1 < g.length → ∀ x ∈ g, ∃ y ∈ g, y ≠ x ∧ isOverlap x y = true

/-- The text `btoa(JSON.stringify(selectedMeetings))` for `storeAB`. -/
def textAB : String :=
  "eyJDU0MxMDhIMSI6eyJfY29sb3IiOnsiZmFsbCI6IiM5OTI2MjYifSwiQ1NDMTA4SDEtTEVDMDEwMS1mYWxsLTAiOnsic2Vzc2lvbkNvZGUiOiJGIiwic2VjdGlvbkNvZGUiOiJMRUMwMTAxIiwic3RhcnQiOjM2MDAwMDAwLCJlbmQiOjM5NjAwMDAwLCJkYXkiOjEsInRlcm0iOiJmYWxsIiwiYnVpbGRpbmciOiJCQSJ9fSwiTUFUMTM3WTEiOnsiX2NvbG9yIjp7ImZhbGwiOiIjRjI4QjMwIn0sIk1BVDEzN1kxLUxFQzAyMDEtZmFsbC0wIjp7InNlc3Npb25Db2RlIjoiRiIsInNlY3Rpb25Db2RlIjoiTEVDMDIwMSIsInN0YXJ0IjozNzgwMDAwMCwiZW5kIjo0MTQwMDAwMCwiZGF5IjoxLCJ0ZXJtIjoiZmFsbCIsImJ1aWxkaW5nIjoiTVAifX19"

/-- The encoder restricted to `storeAB`. -/
def encodeAB (store : Store) : Option String :=
  if store = storeAB then some textAB else none

/-- The decoder restricted to `textAB`. -/
def decodeAB (text : String) : Option Store :=
  if text = textAB then some storeAB else none

/-- A meeting record whose day is 9. -/
def meetingDay9 : Meeting :=
  { sessionCode := "F", sectionCode := "LEC0101", start := 36000000, end_ := 39600000,
    day := 9, term := "fall", building := "MP" }

/-- A decoded import with one course whose only meeting has day 9. -/
def importDay9 : Store :=
  [("PHY131H1", [("PHY131H1-LEC0101-fall-0", Val.meeting meetingDay9)])]

/-- The text `btoa(JSON.stringify(...))` of `importDay9`. -/
def textDay9 : String :=
  "eyJQSFkxMzFIMSI6eyJQSFkxMzFIMS1MRUMwMTAxLWZhbGwtMCI6eyJzZXNzaW9uQ29kZSI6IkYiLCJzZWN0aW9uQ29kZSI6IkxFQzAxMDEiLCJzdGFydCI6MzYwMDAwMDAsImVuZCI6Mzk2MDAwMDAsImRheSI6OSwidGVybSI6ImZhbGwiLCJidWlsZGluZyI6Ik1QIn19fQ=="

/-- The decoder restricted to `textDay9`. -/
def decodeDay9 (text : String) : Option Store :=
  if text = textDay9 then some importDay9 else none

/-- Wednesday 14:00-15:00 in the fall term, a tutorial. -/
def meetingTut : Meeting :=
  { sessionCode := "F", sectionCode := "TUT0101", start := 50400000, end_ := 54000000,
    day := 3, term := "fall", building := "BA" }

/-- Tuesday 9:00-10:00 in the fall term. -/
def meetingPhy : Meeting :=
  { sessionCode := "F", sectionCode := "LEC0101", start := 32400000, end_ := 36000000,
    day := 2, term := "fall", building := "MP" }

/-- A decoded import: one more meeting for a course of `storeAB`, and a new course. -/
def importTut : Store :=
  [("CSC108H1", [("CSC108H1-TUT0101-fall-0", Val.meeting meetingTut)]),
   ("PHY131H1", [("_color", Val.colors [("fall", "#F2B63D")]),
                 ("PHY131H1-LEC0101-fall-0", Val.meeting meetingPhy)])]

/-- The text `btoa(JSON.stringify(...))` of `importTut`. -/
def textTut : String :=
  "eyJDU0MxMDhIMSI6eyJDU0MxMDhIMS1UVVQwMTAxLWZhbGwtMCI6eyJzZXNzaW9uQ29kZSI6IkYiLCJzZWN0aW9uQ29kZSI6IlRVVDAxMDEiLCJzdGFydCI6NTA0MDAwMDAsImVuZCI6NTQwMDAwMDAsImRheSI6MywidGVybSI6ImZhbGwiLCJidWlsZGluZyI6IkJBIn19LCJQSFkxMzFIMSI6eyJfY29sb3IiOnsiZmFsbCI6IiNGMkI2M0QifSwiUEhZMTMxSDEtTEVDMDEwMS1mYWxsLTAiOnsic2Vzc2lvbkNvZGUiOiJGIiwic2VjdGlvbkNvZGUiOiJMRUMwMTAxIiwic3RhcnQiOjMyNDAwMDAwLCJlbmQiOjM2MDAwMDAwLCJkYXkiOjIsInRlcm0iOiJmYWxsIiwiYnVpbGRpbmciOiJNUCJ9fX0="

/-- The decoder restricted to `textTut`. -/
def decodeTut (text : String) : Option Store :=
  if text = textTut then some importTut else none

/-- Some course of the store has colour `x` set for `term`. -/
def UsedIn (store : Store) (term x : String) : Prop :=
  ∃ p ∈ store, entryColor p.2 term = some x

/-! ## Click handlers (lines 425-518 and 628-647) -/

/-- The data attributes of a `.meeting-line` element.  Its `data-id` is not stored: it is
the text built at line 310 from the course code, the section name, the term and the
position `index` of the line in its list. -/
structure MeetingLine where
  index : Nat
  start : Int
  end_ : Int
  day : Int
  term : String
  building : String
deriving DecidableEq, Repr

/-- The id text of line 310. -/
def meetingLineId (courseCode sectionName term : String) (i : Nat) : String :=
  courseCode ++ "-" ++ sectionName ++ "-" ++ term ++ "-" ++ toString i

/-- The object literal of lines 454-462 and 497-505. -/
def lineMeeting (courseSession sectionName : String) (line : MeetingLine) : Meeting :=
  { sessionCode := courseSession, sectionCode := sectionName, start := line.start,
    end_ := line.end_, day := line.day, term := line.term, building := line.building }

/-- `selectedMeetings[courseCode] = selectedMeetings[courseCode] || {}`. -/
def initCourse (store : Store) (courseCode : String) : Store :=
  jsSet store courseCode ((jsGet store courseCode).getD [])

/-- An in-place change of the object `selectedMeetings[courseCode]`.  The handlers only
do this where the entry exists; without it the store is returned as it is. -/
def updateCourse (store : Store) (courseCode : String) (f : Entry → Entry) : Store :=
  match jsGet store courseCode with
  | some entry => jsSet store courseCode (f entry)
  | none => store

/-- The store after the handler for a click on a meeting line (lines 430-473);
`isCurrentlySelected` is the `selected` class of the clicked element and `r` the random
draw of the colour choice. -/
def clickMeeting (store : Store) (courseCode courseSession sectionName : String)
    (line : MeetingLine) (isCurrentlySelected : Bool) (r : Nat) : Store :=
  let meetingId := meetingLineId courseCode sectionName line.term line.index
  let store1 := initCourse store courseCode
  let store2 := (ensureCourseColor store1 courseCode line.term courseSession r).getD store1
  if !isCurrentlySelected then
    updateCourse store2 courseCode
      (fun entry => jsSet entry meetingId (Val.meeting (lineMeeting courseSession sectionName line)))
  else
    cleanupCourseIfEmpty
      (updateCourse store2 courseCode (fun entry => jsDelete entry meetingId)) courseCode

/-- The `forEach` of lines 493-506 from position `i` on; `rnd i` is the random draw of
the `i`-th round. -/
def selectLines (courseCode courseSession sectionName : String) (rnd : Nat → Nat) :
    Nat → Store → List MeetingLine → Store
  | _, store, [] => store
  | i, store, line :: rest =>
    let store1 := (ensureCourseColor store courseCode line.term courseSession (rnd i)).getD store
    let store2 := updateCourse store1 courseCode (fun entry =>
      jsSet entry (meetingLineId courseCode sectionName line.term line.index)
        (Val.meeting (lineMeeting courseSession sectionName line)))
    selectLines courseCode courseSession sectionName rnd (i + 1) store2 rest

/-- The `forEach` of lines 509-512. -/
def deselectLines (courseCode sectionName : String) (store : Store)
    (lines : List MeetingLine) : Store :=
  lines.foldl (fun s line => updateCourse s courseCode (fun entry =>
    jsDelete entry (meetingLineId courseCode sectionName line.term line.index))) store

/-- The store after the handler for a click on a section line (lines 476-517);
`allMeetingLines` are the meeting lines of the section, `isSelected` is the `selected`
class of the section line. -/
def clickSection (store : Store) (courseCode courseSession sectionName : String)
    (allMeetingLines : List MeetingLine) (isSelected : Bool) (rnd : Nat → Nat) : Store :=
  let store1 := initCourse store courseCode
  if !isSelected then
    selectLines courseCode courseSession sectionName rnd 0 store1 allMeetingLines
  else
    cleanupCourseIfEmpty (deselectLines courseCode sectionName store1 allMeetingLines)
      courseCode

/-- The store after the handler for a click on a remove button (lines 628-647). -/
def clickRemove (store : Store) (meetingId courseCode : String) : Store :=
  match jsGet store courseCode with
  | none => store
  | some entry =>
    if (jsGet entry meetingId).isSome then
      cleanupCourseIfEmpty (jsSet store courseCode (jsDelete entry meetingId)) courseCode
    else store

/-- The user actions that change the store. -/
inductive Event where
  | meetingClick (courseCode courseSession sectionName : String) (line : MeetingLine)
      (isCurrentlySelected : Bool) (r : Nat)
  | sectionClick (courseCode courseSession sectionName : String)
      (allMeetingLines : List MeetingLine) (isSelected : Bool) (rnd : Nat → Nat)
  | removeClick (meetingId courseCode : String)
  | importClick (text : String)

/-- The store after one event. -/
def step (decode : String → Option Store) (clientWidth : String → ℚ) (store : Store) :
    Event → Store
  | Event.meetingClick c sess sec line sel r => clickMeeting store c sess sec line sel r
  | Event.sectionClick c sess sec lines sel rnd => clickSection store c sess sec lines sel rnd
  | Event.removeClick meetingId c => clickRemove store meetingId c
  | Event.importClick text => (importSelectedMeetings decode clientWidth store text).1

/-- The store after a sequence of events, starting from the empty store. -/
def run (decode : String → Option Store) (clientWidth : String → ℚ) (events : List Event) :
    Store :=
  events.foldl (step decode clientWidth) []

/-- Every course entry of the store holds a key other than `_color`. -/
def NoEmptyCourse (store : Store) : Prop :=
  ∀ p ∈ store, ∃ q ∈ p.2, q.1 ≠ "_color"

/-- The events that keep the store invariant, at the store they are applied to.  A section
that is toggled on without any meeting line belongs to a course that is in the store.  Each
course of an imported mapping is in the store, or has a code that names no inherited
property and holds a key other than `_color` and `__proto__`, or has a code that names an
inherited property and holds nothing. -/
def Admissible (decode : String → Option Store) (store : Store) : Event → Prop
  | Event.meetingClick _ _ _ _ _ _ => True
  | Event.sectionClick c _ _ lines sel _ =>
    sel = false → lines = [] → (jsGet store c).isSome = true
  | Event.removeClick _ _ => True
  | Event.importClick text =>
    ∀ imported, decode text = some imported → ∀ p ∈ imported,
      (jsGet store p.1).isSome = true ∨
        (p.1 ∉ prototypeKeys ∧ ∃ q ∈ p.2, q.1 ≠ "_color" ∧ q.1 ≠ "__proto__") ∨
        (p.1 ∈ prototypeKeys ∧ p.2 = [])

/-- Every event of the sequence is admissible at the store it is applied to. -/
def AdmissibleRun (decode : String → Option Store) (clientWidth : String → ℚ) :
    Store → List Event → Prop
  | _, [] => True
  | store, ev :: rest =>
    Admissible decode store ev ∧
      AdmissibleRun decode clientWidth (step decode clientWidth store ev) rest

/-- A decoded import with one course that holds no meeting. -/
def importNoMeeting : Store := [("PHY131H1", [])]

/-- The text `btoa(JSON.stringify(...))` of `importNoMeeting`. -/
def textNoMeeting : String := "eyJQSFkxMzFIMSI6e319"

/-- The decoder restricted to `textNoMeeting`. -/
def decodeNoMeeting (text : String) : Option Store :=
  if text = textNoMeeting then some importNoMeeting else none

/-- Every course that a lookup finds holds a key other than `_color`. -/
def LookupNonEmpty (store : Store) : Prop :=
  ∀ c e, jsGet store c = some e → ∃ q ∈ e, q.1 ≠ "_color"

/-- The two stores agree on every course other than `c`. -/
def SameExcept (c : String) (s1 s2 : Store) : Prop :=
  ∀ c2, c2 ≠ c → jsGet s2 c2 = jsGet s1 c2

/-- The store invariant carried through the handlers: unique course codes, and every
course that a lookup finds holds a meeting. -/
def StoreInv (store : Store) : Prop :=
  UniqueKeys store ∧ LookupNonEmpty store

/-- Two meeting lines of one lecture section, Monday and Wednesday 10:00-11:00 in the fall. -/
def linesLec : List MeetingLine :=
  [{ index := 0, start := 36000000, end_ := 39600000, day := 1, term := "fall", building := "BA" },
   { index := 1, start := 36000000, end_ := 39600000, day := 3, term := "fall", building := "BA" }]

/-- Select a section, remove one of its meetings with the remove button, then import
the text of `storeAB`. -/
def eventsDemo : List Event :=
  [Event.sectionClick "CSC108H1" "F" "LEC0101" linesLec false (fun _ => 0),
   Event.removeClick "CSC108H1-LEC0101-fall-1" "CSC108H1",
   Event.importClick textAB]

/-- The `data-id` of a meeting line of section `sectionName` of course `courseCode`. -/
def lineId (courseCode sectionName : String) (line : MeetingLine) : String :=
  meetingLineId courseCode sectionName line.term line.index

/-- The colour slot of the line's term will be set by `ensureCourseColor`: always for a
session other than `Y`; for session `Y` the term is fall or winter and its slot is set
already or the course has neither a fall nor a winter colour. -/
def ColorReady (courseSession : String) (entry : Entry) (line : MeetingLine) : Prop :=
  courseSession = "Y" →
    (line.term = "fall" ∨ line.term = "winter") ∧
      ((entryColor entry line.term).isSome = true ∨
        (entryColor entry "fall" = none ∧ entryColor entry "winter" = none))

/-- A winter meeting line, Tuesday 13:00-14:00. -/
def lineWinter : MeetingLine :=
  { index := 0, start := 46800000, end_ := 50400000, day := 2, term := "winter",
    building := "SS" }

/-- Two blocks lie in one conflict group. -/
def SameGroup (groups : List (List Block)) (a b : Block) : Prop :=
  ∃ g ∈ groups, a ∈ g ∧ b ∈ g

/-- Two blocks of the list overlap. -/
def OverlapStep (blocks : List Block) (u v : Block) : Prop :=
  u ∈ blocks ∧ v ∈ blocks ∧ isOverlap u v = true

/-- Two blocks are joined by a chain of pairwise overlapping blocks of the list: the
reflexive transitive closure of the overlap relation. -/
def Reach (blocks : List Block) : Block → Block → Prop :=
  Relation.ReflTransGen (OverlapStep blocks)

/-- Every group consists of blocks of the list that are joined by overlap chains. -/
def Chained (blocks : List Block) (groups : List (List Block)) : Prop :=
  ∀ g ∈ groups, (∀ x ∈ g, x ∈ blocks) ∧ ∀ x ∈ g, ∀ y ∈ g, Reach blocks x y

/-- The courses of `storeAB` inserted in the other order. -/
def storeBA : Store :=
  [("MAT137Y1", [("_color", Val.colors [("fall", "#F28B30")]),
                 ("MAT137Y1-LEC0201-fall-0", Val.meeting meetingB)]),
   ("CSC108H1", [("_color", Val.colors [("fall", "#992626")]),
                 ("CSC108H1-LEC0101-fall-0", Val.meeting meetingA)])]

/-- A decoded import whose only course code is the name of an inherited property. -/
def importCtor : Store := [("constructor", [])]

/-- The text `btoa(JSON.stringify(...))` of `importCtor`. -/
def textCtor : String := "eyJjb25zdHJ1Y3RvciI6e319"

/-- The decoder restricted to `textCtor`. -/
def decodeCtor (text : String) : Option Store :=
  if text = textCtor then some importCtor else none

/-- A decoded import whose course holds `meetingA` under the key `__proto__`. -/
def importProto : Store := [("CSC108H1", [("__proto__", Val.meeting meetingA)])]

/-- The text of `importProto` in the export encoding. -/
def textProto : String :=
  "eyJDU0MxMDhIMSI6eyJfX3Byb3RvX18iOnsic2Vzc2lvbkNvZGUiOiJGIiwic2VjdGlvbkNvZGUiOiJMRUMwMTAxIiwic3RhcnQiOjM2MDAwMDAwLCJlbmQiOjM5NjAwMDAwLCJkYXkiOjEsInRlcm0iOiJmYWxsIiwiYnVpbGRpbmciOiJCQSJ9fX0="

/-- The decoder restricted to `textProto`. -/
def decodeProto (text : String) : Option Store :=
  if text = textProto then some importProto else none

/-! ## Facts about objects -/

theorem jsGet_jsSet_same {α : Type} (o : List (String × α)) (k : String) (v : α) :
    jsGet (jsSet o k v) k = some v := by
  induction o with
  | nil => simp [jsSet, jsGet]
  | cons p o ih =>
    obtain ⟨k', v'⟩ := p
    by_cases h : k' = k
    · simp [jsSet, jsGet, h]
    · simp [jsSet, jsGet, h, ih]

theorem jsGet_jsSet_other {α : Type} (o : List (String × α)) (k k2 : String) (v : α)
    (h : k ≠ k2) : jsGet (jsSet o k v) k2 = jsGet o k2 := by
  induction o with
  | nil => simp [jsSet, jsGet, h]
  | cons p o ih =>
    obtain ⟨k', v'⟩ := p
    by_cases h1 : k' = k
    · subst h1
      simp [jsSet, jsGet, h]
    · by_cases h2 : k' = k2
      · subst h2
        simp [jsSet, jsGet, h1]
      · simp [jsSet, jsGet, h1, h2, ih]

theorem jsGet_eq_none_iff {α : Type} (o : List (String × α)) (k : String) :
    jsGet o k = none ↔ k ∉ o.map Prod.fst := by
  induction o with
  | nil => simp [jsGet]
  | cons p o ih =>
    obtain ⟨k', v'⟩ := p
    by_cases h : k' = k
    · simp [jsGet, h]
    · simp only [jsGet, h, if_false, ih, List.map_cons, List.mem_cons]
      constructor
      · intro h1 h2
        rcases h2 with h2 | h2
        · exact h h2.symm
        · exact h1 h2
      · intro h1 h2
        exact h1 (Or.inr h2)

theorem jsGet_mem {α : Type} (o : List (String × α)) (k : String) (v : α)
    (h : jsGet o k = some v) : (k, v) ∈ o := by
  induction o with
  | nil => simp [jsGet] at h
  | cons p o ih =>
    obtain ⟨k', v'⟩ := p
    by_cases h1 : k' = k
    · simp [jsGet, h1] at h
      simp [h1, h]
    · simp [jsGet, h1] at h
      exact List.mem_cons_of_mem _ (ih h)

theorem jsGet_of_mem {α : Type} (o : List (String × α)) (k : String) (v : α)
    (hu : UniqueKeys o) (h : (k, v) ∈ o) : jsGet o k = some v := by
  induction o with
  | nil => simp at h
  | cons p o ih =>
    obtain ⟨k', v'⟩ := p
    simp only [UniqueKeys, List.map_cons, List.nodup_cons] at hu
    rcases List.mem_cons.1 h with h1 | h1
    · simp only [Prod.mk.injEq] at h1
      simp [jsGet, h1.1, h1.2]
    · have hne : k' ≠ k := by
        intro he
        apply hu.1
        rw [he]
        exact List.mem_map.2 ⟨(k, v), h1, rfl⟩
      simp only [jsGet, hne, if_false]
      exact ih hu.2 h1

theorem jsSet_keys_of_get {α : Type} (o : List (String × α)) (k : String) (v w : α)
    (h : jsGet o k = some w) : (jsSet o k v).map Prod.fst = o.map Prod.fst := by
  induction o with
  | nil => simp [jsGet] at h
  | cons p o ih =>
    obtain ⟨k', v'⟩ := p
    by_cases h1 : k' = k
    · simp [jsSet, h1]
    · simp only [jsGet, h1, if_false] at h
      simp [jsSet, h1, ih h]

theorem jsSet_keys_of_none {α : Type} (o : List (String × α)) (k : String) (v : α)
    (h : jsGet o k = none) : (jsSet o k v).map Prod.fst = o.map Prod.fst ++ [k] := by
  induction o with
  | nil => simp [jsSet]
  | cons p o ih =>
    obtain ⟨k', v'⟩ := p
    by_cases h1 : k' = k
    · simp [jsGet, h1] at h
    · simp only [jsGet, h1, if_false] at h
      simp [jsSet, h1, ih h]

theorem uniqueKeys_jsSet {α : Type} (o : List (String × α)) (k : String) (v : α)
    (hu : UniqueKeys o) : UniqueKeys (jsSet o k v) := by
  unfold UniqueKeys at *
  cases h : jsGet o k with
  | none =>
    rw [jsSet_keys_of_none o k v h]
    have hk := (jsGet_eq_none_iff o k).1 h
    rw [List.nodup_append]
    refine ⟨hu, List.nodup_singleton k, ?_⟩
    intro x hx hx2
    simp only [List.mem_singleton] at hx2
    subst hx2
    exact hk hx
  | some w =>
    rw [jsSet_keys_of_get o k v w h]
    exact hu

theorem mem_jsSet {α : Type} (o : List (String × α)) (k : String) (v : α) (q : String × α)
    (h : q ∈ jsSet o k v) : q = (k, v) ∨ q ∈ o := by
  induction o with
  | nil =>
    simp only [jsSet, List.mem_singleton] at h
    exact Or.inl h
  | cons p o ih =>
    obtain ⟨k', v'⟩ := p
    by_cases h1 : k' = k
    · simp only [jsSet, h1, if_true, List.mem_cons] at h
      rcases h with h | h
      · exact Or.inl h
      · exact Or.inr (List.mem_cons_of_mem _ h)
    · simp only [jsSet, h1, if_false, List.mem_cons] at h
      rcases h with h | h
      · right
        subst h
        exact List.mem_cons_self _ _
      · rcases ih h with h2 | h2
        · exact Or.inl h2
        · exact Or.inr (List.mem_cons_of_mem _ h2)

/-! ## Facts about the greedy grouping -/

theorem isOverlap_iff (a b : Block) :
    isOverlap a b = true ↔
      a.start < a.end_ ∧ a.start < b.end_ ∧ b.start < a.end_ ∧ b.start < b.end_ := by
  simp only [isOverlap, decide_eq_true_eq, max_lt_iff, lt_min_iff]
  constructor
  · rintro ⟨⟨h1, h2⟩, h3, h4⟩
    exact ⟨h1, h3, h2, h4⟩
  · rintro ⟨h1, h2, h3, h4⟩
    exact ⟨⟨h1, h3⟩, h2, h4⟩

theorem isOverlap_comm (a b : Block) : isOverlap a b = isOverlap b a := by
  rw [Bool.eq_iff_iff, isOverlap_iff, isOverlap_iff]
  constructor <;> (rintro ⟨h1, h2, h3, h4⟩; exact ⟨h4, h3, h2, h1⟩)

/-- Two blocks that start no later than `b` and both overlap `b` overlap each other. -/
theorem isOverlap_of_common (x y b : Block) (hx : x.start ≤ b.start) (hy : y.start ≤ b.start)
    (hxb : isOverlap x b = true) (hyb : isOverlap y b = true) : isOverlap x y = true := by
  rw [isOverlap_iff] at *
  obtain ⟨h1, h2, h3, h4⟩ := hxb
  obtain ⟨h5, h6, h7, h8⟩ := hyb
  refine ⟨h1, ?_, ?_, h5⟩ <;> omega

theorem mem_addToGroups (b : Block) (groups : List (List Block)) (g : List Block)
    (hg : g ∈ addToGroups b groups) (x : Block) (hx : x ∈ g) :
    x = b ∨ ∃ h ∈ groups, x ∈ h := by
  induction groups with
  | nil =>
    simp only [addToGroups, List.mem_singleton] at hg
    subst hg
    simp only [List.mem_singleton] at hx
    exact Or.inl hx
  | cons g0 rest ih =>
    by_cases hany : g0.any (fun z => isOverlap z b) = true
    · simp only [addToGroups, hany, if_true, List.mem_cons] at hg
      rcases hg with hg | hg
      · subst hg
        rcases List.mem_append.1 hx with h1 | h1
        · exact Or.inr ⟨g0, List.mem_cons_self _ _, h1⟩
        · simp only [List.mem_singleton] at h1
          exact Or.inl h1
      · exact Or.inr ⟨g, List.mem_cons_of_mem _ hg, hx⟩
    · rw [Bool.not_eq_true] at hany
      simp only [addToGroups, hany, Bool.false_eq_true, if_false, List.mem_cons] at hg
      rcases hg with hg | hg
      · subst hg
        exact Or.inr ⟨g, List.mem_cons_self _ _, hx⟩
      · rcases ih hg with h1 | ⟨h, hh, hxh⟩
        · exact Or.inl h1
        · exact Or.inr ⟨h, List.mem_cons_of_mem _ hh, hxh⟩

theorem separated_addToGroups (b : Block) (groups : List (List Block))
    (hs : Separated groups) (hb : StartsBefore groups b) :
    Separated (addToGroups b groups) := by
  induction groups with
  | nil => simp [addToGroups, Separated]
  | cons g0 rest ih =>
    have hs0 := hs
    unfold Separated at hs
    rw [List.pairwise_cons] at hs
    by_cases hany : g0.any (fun z => isOverlap z b) = true
    · simp only [addToGroups, hany, if_true]
      unfold Separated
      rw [List.pairwise_cons]
      refine ⟨?_, hs.2⟩
      intro h hh x hx y hy
      rcases List.mem_append.1 hx with h1 | h1
      · exact hs.1 h hh x h1 y hy
      · simp only [List.mem_singleton] at h1
        subst h1
        obtain ⟨z, hz, hzb⟩ := List.any_eq_true.1 hany
        by_contra hcon
        have hxy : isOverlap x y = true := by
          cases hv : isOverlap x y with
          | true => rfl
          | false => exact absurd hv hcon
        have hyx : isOverlap y x = true := by rw [isOverlap_comm]; exact hxy
        have hzy : isOverlap z y = true :=
          isOverlap_of_common z y x (hb g0 (List.mem_cons_self _ _) z hz)
            (hb h (List.mem_cons_of_mem _ hh) y hy) hzb hyx
        rw [hs.1 h hh z hz y hy] at hzy
        exact Bool.noConfusion hzy
    · rw [Bool.not_eq_true] at hany
      simp only [addToGroups, hany, Bool.false_eq_true, if_false]
      unfold Separated
      rw [List.pairwise_cons]
      refine ⟨?_, ih hs.2 (fun g hg x hx => hb g (List.mem_cons_of_mem _ hg) x hx)⟩
      intro h hh x hx y hy
      rcases mem_addToGroups b rest h hh y hy with h1 | ⟨h2, hh2, hy2⟩
      · subst h1
        cases hv : isOverlap x y with
        | false => rfl
        | true =>
          exfalso
          have hany2 : g0.any (fun z => isOverlap z y) = true :=
            List.any_eq_true.2 ⟨x, hx, hv⟩
          rw [hany] at hany2
          exact Bool.noConfusion hany2
      · exact hs.1 h2 hh2 x hx y hy2

theorem flatten_addToGroups (b : Block) (groups : List (List Block)) :
    (addToGroups b groups).flatten.Perm (groups.flatten ++ [b]) := by
  induction groups with
  | nil => simp [addToGroups]
  | cons g0 rest ih =>
    by_cases hany : g0.any (fun z => isOverlap z b) = true
    · simp only [addToGroups, hany, if_true, List.flatten_cons, List.append_assoc]
      exact List.Perm.append_left g0 List.perm_append_comm
    · rw [Bool.not_eq_true] at hany
      simp only [addToGroups, hany, Bool.false_eq_true, if_false, List.flatten_cons,
        List.append_assoc]
      exact List.Perm.append_left g0 ih

theorem flatten_groupFrom (blocks : List Block) (groups : List (List Block)) :
    (groupFrom groups blocks).flatten.Perm (groups.flatten ++ blocks) := by
  induction blocks generalizing groups with
  | nil => simp [groupFrom]
  | cons b rest ih =>
    have h1 := ih (addToGroups b groups)
    have h2 : (groupFrom groups (b :: rest)) = groupFrom (addToGroups b groups) rest := rfl
    rw [h2]
    refine h1.trans ?_
    have h3 := (flatten_addToGroups b groups).append_right rest
    simpa using h3

theorem separated_groupFrom (blocks : List Block) (groups : List (List Block))
    (hs : Separated groups)
    (hb : ∀ b ∈ blocks, StartsBefore groups b)
    (hsorted : blocks.Pairwise (fun a b => a.start ≤ b.start)) :
    Separated (groupFrom groups blocks) := by
  induction blocks generalizing groups with
  | nil => simpa [groupFrom] using hs
  | cons b rest ih =>
    have h2 : (groupFrom groups (b :: rest)) = groupFrom (addToGroups b groups) rest := rfl
    rw [h2]
    rw [List.pairwise_cons] at hsorted
    apply ih
    · exact separated_addToGroups b groups hs (hb b (List.mem_cons_self _ _))
    · intro c hc g hg x hx
      rcases mem_addToGroups b groups g hg x hx with h1 | ⟨h, hh, hxh⟩
      · subst h1
        exact hsorted.1 c hc
      · exact hb c (List.mem_cons_of_mem _ hc) h hh x hxh
    · exact hsorted.2

theorem sorted_by_start (blocks : List Block) :
    (blocks.insertionSort (fun a b => a.start ≤ b.start)).Pairwise
      (fun a b => a.start ≤ b.start) := by
  have : IsTotal Block (fun a b => a.start ≤ b.start) := ⟨fun a b => le_total a.start b.start⟩
  have : IsTrans Block (fun a b => a.start ≤ b.start) :=
    ⟨fun a b c h1 h2 => le_trans h1 h2⟩
  exact List.sorted_insertionSort (fun a b : Block => a.start ≤ b.start) blocks

theorem conflictGroups_perm (blocks : List Block) :
    (conflictGroups blocks).flatten.Perm blocks := by
  have h1 := flatten_groupFrom (blocks.insertionSort (fun a b => a.start ≤ b.start)) []
  simp only [List.flatten_nil, List.nil_append] at h1
  exact h1.trans (List.perm_insertionSort _ blocks)

theorem conflictGroups_separated (blocks : List Block) :
    Separated (conflictGroups blocks) := by
  apply separated_groupFrom
  · exact List.Pairwise.nil
  · intro b _ g hg
    simp at hg
  · exact sorted_by_start blocks

/-- Two overlapping blocks of the list end up in one group. -/
theorem conflictGroups_same_group (blocks : List Block) (a b : Block)
    (ha : a ∈ blocks) (hb : b ∈ blocks) (hov : isOverlap a b = true) :
    ∃ g ∈ conflictGroups blocks, a ∈ g ∧ b ∈ g := by
  have hp := conflictGroups_perm blocks
  obtain ⟨g1, hg1, ha1⟩ := List.mem_flatten.1 ((hp.mem_iff).2 ha)
  obtain ⟨g2, hg2, hb2⟩ := List.mem_flatten.1 ((hp.mem_iff).2 hb)
  by_cases hne : g1 = g2
  · subst hne
    exact ⟨g1, hg1, ha1, hb2⟩
  · exfalso
    have hsep := conflictGroups_separated blocks
    have hsymm : Symmetric (fun g h : List Block => ∀ x ∈ g, ∀ y ∈ h, isOverlap x y = false) := by
      intro g h hgh x hx y hy
      rw [isOverlap_comm]
      exact hgh y hy x hx
    have := List.Pairwise.forall hsymm hsep hg1 hg2 hne a ha1 b hb2
    rw [this] at hov
    exact Bool.noConfusion hov

/-! ## Facts about the distribution into day buckets -/

theorem pushDay_spec (days days2 : List (List Block)) (i : Int) (b : Block)
    (h : pushDay days i b = some days2) :
    days2.length = days.length ∧
      ∀ d : Nat, d < days.length →
        days2.getD d [] = days.getD d [] ++ (if i = (d : Int) then [b] else []) := by
  unfold pushDay at h
  split at h
  · rename_i hi
    simp only [Option.some.injEq] at h
    subst h
    refine ⟨List.length_modify _ _ _, ?_⟩
    intro d hd
    rw [List.getD_eq_getElem?_getD, List.getD_eq_getElem?_getD, List.getElem?_modify,
      List.getElem?_eq_getElem hd]
    by_cases hid : i = (d : Int)
    · have : i.toNat = d := by omega
      simp [hid]
    · have : i.toNat ≠ d := by omega
      simp [hid, this]
  · exact Option.noConfusion h

theorem pushBlock_spec (t t2 : Table) (ob : Option Block)
    (h : pushBlock t ob = some t2) (hf : t.fall.length = 5) (hw : t.winter.length = 5) :
    t2.fall.length = 5 ∧ t2.winter.length = 5 ∧
      ∃ b, ob = some b ∧ ∀ term : String, term = "fall" ∨ term = "winter" →
        ∀ d : Nat, d < 5 →
          t2.bucket term d = t.bucket term d ++
            (if b.term = term ∧ b.dayIndex = (d : Int) then [b] else []) := by
  cases ob with
  | none => exact Option.noConfusion h
  | some b =>
    unfold pushBlock at h
    by_cases h1 : b.term = "fall"
    · simp only [h1, if_true, Option.map_eq_some'] at h
      obtain ⟨days2, hd, ht⟩ := h
      subst ht
      obtain ⟨hl, hget⟩ := pushDay_spec _ _ _ _ hd
      refine ⟨by simpa [hf] using hl, hw, b, rfl, ?_⟩
      intro term hterm d hd5
      rcases hterm with ht | ht
      · subst ht
        have := hget d (by omega)
        simp only [Table.bucket, if_true, h1, true_and]
        exact this
      · subst ht
        simp [Table.bucket, h1]
    · by_cases h2 : b.term = "winter"
      · simp only [h1, if_false] at h
        simp only [h2, if_true, Option.map_eq_some'] at h
        obtain ⟨days2, hd, ht⟩ := h
        subst ht
        obtain ⟨hl, hget⟩ := pushDay_spec _ _ _ _ hd
        refine ⟨hf, by simpa [hw] using hl, b, rfl, ?_⟩
        intro term hterm d hd5
        rcases hterm with ht | ht
        · subst ht
          simp [Table.bucket, h2]
        · subst ht
          have := hget d (by omega)
          simp only [Table.bucket, if_true, h2, true_and]
          simpa using this
      · simp [h1, h2] at h

theorem foldlM_pushBlock_spec (blocks : List (Option Block)) (t t2 : Table)
    (h : blocks.foldlM pushBlock t = some t2)
    (hf : t.fall.length = 5) (hw : t.winter.length = 5)
    (term : String) (hterm : term = "fall" ∨ term = "winter") (d : Nat) (hd : d < 5) :
    t2.bucket term d = t.bucket term d ++ dayBlocks blocks term d := by
  induction blocks generalizing t with
  | nil =>
    simp only [List.foldlM_nil, pure, Option.some.injEq] at h
    subst h
    simp [dayBlocks]
  | cons ob rest ih =>
    rw [List.foldlM_cons] at h
    cases h1 : pushBlock t ob with
    | none =>
      rw [h1] at h
      exact Option.noConfusion h
    | some t1 =>
      rw [h1] at h
      obtain ⟨hf1, hw1, b, hob, hb⟩ := pushBlock_spec t t1 ob h1 hf hw
      have h2 := ih t1 h hf1 hw1
      rw [h2, hb term hterm d hd, hob, List.append_assoc]
      congr 1
      by_cases hc : b.term = term ∧ b.dayIndex = (d : Int)
      · simp [dayBlocks, hc]
      · simp only [hc, if_false, List.nil_append, dayBlocks, List.filterMap_cons, id]
        rw [List.filter_cons]
        simp [hc]

theorem byTermAndDay_bucket (blocks : List (Option Block)) (table : Table)
    (h : byTermAndDay blocks = some table)
    (term : String) (hterm : term = "fall" ∨ term = "winter") (d : Nat) (hd : d < 5) :
    table.bucket term d = dayBlocks blocks term d := by
  have := foldlM_pushBlock_spec blocks emptyTable table h rfl rfl term hterm d hd
  rw [this]
  rcases hterm with ht | ht <;> subst ht
  · have : d = 0 ∨ d = 1 ∨ d = 2 ∨ d = 3 ∨ d = 4 := by omega
    rcases this with h | h | h | h | h <;> subst h <;> simp [Table.bucket, emptyTable]
  · have : d = 0 ∨ d = 1 ∨ d = 2 ∨ d = 3 ∨ d = 4 := by omega
    rcases this with h | h | h | h | h <;> subst h <;> simp [Table.bucket, emptyTable]

theorem allBlocks_placeable (store : Store) (hv : ValidMeetings store) :
    ∀ ob ∈ allBlocks store, PlaceableBlock ob := by
  intro ob hob
  unfold allBlocks at hob
  obtain ⟨p, hp, hob⟩ := List.mem_flatMap.1 hob
  unfold entryBlocks at hob
  obtain ⟨q, hq, hob⟩ := List.mem_map.1 hob
  rw [List.mem_filter] at hq
  have hne : q.1 ≠ "_color" := by simpa using hq.2
  have hval := hv p hp q hq.1 hne
  cases hq2 : q.2 with
  | colors c =>
    rw [hq2] at hval
    simp [validVal] at hval
  | meeting m =>
    rw [hq2] at hval hob
    simp only [validVal, decide_eq_true_eq] at hval
    refine ⟨_, hob.symm, ?_, ?_, ?_⟩
    · exact hval.1
    · simp only [Block.dayIndex]
      omega
    · simp only [Block.dayIndex]
      omega

theorem pushBlock_ok (t : Table) (ob : Option Block) (hp : PlaceableBlock ob)
    (hf : t.fall.length = 5) (hw : t.winter.length = 5) :
    ∃ t2, pushBlock t ob = some t2 := by
  obtain ⟨b, hob, hterm, h0, h5⟩ := hp
  subst hob
  unfold pushBlock pushDay
  rcases hterm with ht | ht
  · simp [ht, hf, h0, h5]
  · by_cases h1 : b.term = "fall"
    · simp [h1, hf, h0, h5]
    · simp [h1, ht, hw, h0, h5]

theorem foldlM_pushBlock_ok (blocks : List (Option Block)) (t : Table)
    (hp : ∀ ob ∈ blocks, PlaceableBlock ob)
    (hf : t.fall.length = 5) (hw : t.winter.length = 5) :
    ∃ t2, blocks.foldlM pushBlock t = some t2 := by
  induction blocks generalizing t with
  | nil => exact ⟨t, rfl⟩
  | cons ob rest ih =>
    obtain ⟨t1, h1⟩ := pushBlock_ok t ob (hp ob (List.mem_cons_self _ _)) hf hw
    obtain ⟨hf1, hw1, _⟩ := pushBlock_spec t t1 ob h1 hf hw
    obtain ⟨t2, h2⟩ := ih t1 (fun o ho => hp o (List.mem_cons_of_mem _ ho)) hf1 hw1
    refine ⟨t2, ?_⟩
    rw [List.foldlM_cons, h1]
    exact h2

theorem byTermAndDay_ok (store : Store) (hv : ValidMeetings store) :
    ∃ table, byTermAndDay (allBlocks store) = some table :=
  foldlM_pushBlock_ok (allBlocks store) emptyTable (allBlocks_placeable store hv) rfl rfl

/-! ## Facts about the rectangles -/

theorem mem_rectsFrom (clientWidth : String → ℚ) (dayIndex size : Nat) (group : List Block)
    (k i : Nat) (a : Block) (h : group[i]? = some a) :
    blockRect clientWidth dayIndex size (k + i) a ∈
      rectsFrom clientWidth dayIndex size k group := by
  induction group generalizing k i with
  | nil => simp at h
  | cons b rest ih =>
    cases i with
    | zero =>
      simp only [List.getElem?_cons_zero, Option.some.injEq] at h
      subst h
      simp [rectsFrom]
    | succ i =>
      simp only [List.getElem?_cons_succ] at h
      have := ih (k + 1) i h
      simp only [rectsFrom, List.mem_cons]
      right
      have he : k + (i + 1) = k + 1 + i := by omega
      rw [he]
      exact this

theorem mem_renderSelectedMeetings (store : Store) (clientWidth : String → ℚ) (table : Table)
    (ht : byTermAndDay (allBlocks store) = some table)
    (term : String) (hterm : term = "fall" ∨ term = "winter") (d : Nat) (hd : d < 5)
    (g : List Block) (hg : g ∈ conflictGroups (table.bucket term d))
    (i : Nat) (a : Block) (hi : g[i]? = some a) :
    ∃ rects, renderSelectedMeetings store clientWidth = some rects ∧
      blockRect clientWidth d g.length i a ∈ rects := by
  unfold renderSelectedMeetings
  rw [ht]
  refine ⟨_, rfl, ?_⟩
  rw [List.mem_flatMap]
  refine ⟨term, by rcases hterm with h | h <;> simp [h], ?_⟩
  rw [List.mem_flatMap]
  refine ⟨d, List.mem_range.2 hd, ?_⟩
  unfold cellRects
  rw [List.mem_flatMap]
  refine ⟨g, hg, ?_⟩
  have := mem_rectsFrom clientWidth d g.length g 0 i a hi
  simpa [groupRects] using this

/-- In a group of `size` members the sub-slot at `i` ends before the sub-slot at a later
position `j` begins. -/
theorem slot_before (clientWidth : String → ℚ) (d size i j : Nat) (a b : Block)
    (hterm : a.term = b.term)
    (hW : 0 < (clientWidth (a.term ++ "-timetable") - 50) / 5)
    (hsize : 0 < size) (hij : i < j) :
    (blockRect clientWidth d size i a).left + (blockRect clientWidth d size i a).width ≤
      (blockRect clientWidth d size j b).left := by
  simp only [blockRect, ← hterm]
  have hc : 0 < (clientWidth (a.term ++ "-timetable") - 50) / 5 / (size : ℚ) :=
    div_pos hW (by exact_mod_cast hsize)
  have hij2 : (i : ℚ) + 1 ≤ (j : ℚ) := by exact_mod_cast hij
  nlinarith [mul_le_mul_of_nonneg_right hij2 hc.le]

/-- C1: in a store whose meetings all have a term in fall/winter and a day in 1..5, two
distinct selected meetings of one term and weekday that overlap in time are put by
`renderSelectedMeetings` into the same conflict group at different slot indices, and the
horizontal spans `[left, left + width)` of their rectangles are disjoint, for every
positive column width. -/
theorem overlapping_meetings_get_disjoint_slots (store : Store) (clientWidth : String → ℚ)
    (term : String) (d : Nat) (a b : Block)
    (hvalid : ValidMeetings store)
    (hterm : term = "fall" ∨ term = "winter") (hd : d < 5)
    (hW : 0 < (clientWidth (term ++ "-timetable") - 50) / 5)
    (ha : a ∈ dayBlocks (allBlocks store) term d)
    (hb : b ∈ dayBlocks (allBlocks store) term d)
    (hab : a ≠ b) (hov : isOverlap a b = true) :
    ∃ table rects, byTermAndDay (allBlocks store) = some table ∧
      renderSelectedMeetings store clientWidth = some rects ∧
      ∃ g ∈ conflictGroups (table.bucket term d), ∃ i j : Nat,
        i ≠ j ∧ g[i]? = some a ∧ g[j]? = some b ∧
        blockRect clientWidth d g.length i a ∈ rects ∧
        blockRect clientWidth d g.length j b ∈ rects ∧
        ((blockRect clientWidth d g.length i a).left +
            (blockRect clientWidth d g.length i a).width ≤
              (blockRect clientWidth d g.length j b).left ∨
          (blockRect clientWidth d g.length j b).left +
            (blockRect clientWidth d g.length j b).width ≤
              (blockRect clientWidth d g.length i a).left) := by
  obtain ⟨table, htable⟩ := byTermAndDay_ok store hvalid
  have hbucket := byTermAndDay_bucket (allBlocks store) table htable term hterm d hd
  have hat : a.term = term := by
    have := (List.mem_filter.1 ha).2
    simp only [decide_eq_true_eq] at this
    exact this.1
  have hbt : b.term = term := by
    have := (List.mem_filter.1 hb).2
    simp only [decide_eq_true_eq] at this
    exact this.1
  rw [← hbucket] at ha hb
  obtain ⟨g, hg, hag, hbg⟩ := conflictGroups_same_group (table.bucket term d) a b ha hb hov
  obtain ⟨i, hi⟩ := List.getElem?_of_mem hag
  obtain ⟨j, hj⟩ := List.getElem?_of_mem hbg
  have hij : i ≠ j := by
    intro h
    rw [h, hj] at hi
    exact hab (Option.some.inj hi).symm
  obtain ⟨rects, hr, hra⟩ :=
    mem_renderSelectedMeetings store clientWidth table htable term hterm d hd g hg i a hi
  obtain ⟨rects2, hr2, hrb⟩ :=
    mem_renderSelectedMeetings store clientWidth table htable term hterm d hd g hg j b hj
  rw [hr] at hr2
  have hrr : rects2 = rects := (Option.some.inj hr2).symm
  subst hrr
  have hsize : 0 < g.length := List.length_pos_of_mem hag
  refine ⟨table, rects2, htable, hr, g, hg, i, j, hij, hi, hj, hra, hrb, ?_⟩
  rcases Nat.lt_or_gt_of_ne hij with h | h
  · left
    exact slot_before clientWidth d g.length i j a b (hat.trans hbt.symm)
      (by rw [hat]; exact hW) hsize h
  · right
    exact slot_before clientWidth d g.length j i b a (hbt.trans hat.symm)
      (by rw [hbt]; exact hW) hsize h

/-- Witness for C1: the two overlapping Monday meetings of `storeAB` at column width 100. -/
theorem overlapping_meetings_get_disjoint_slots_witness :
    ∃ table rects, byTermAndDay (allBlocks storeAB) = some table ∧
      renderSelectedMeetings storeAB (fun _ => 550) = some rects ∧
      ∃ g ∈ conflictGroups (table.bucket "fall" 0), ∃ i j : Nat,
        i ≠ j ∧ g[i]? = some blockA ∧ g[j]? = some blockB ∧
        blockRect (fun _ => 550) 0 g.length i blockA ∈ rects ∧
        blockRect (fun _ => 550) 0 g.length j blockB ∈ rects ∧
        ((blockRect (fun _ => 550) 0 g.length i blockA).left +
            (blockRect (fun _ => 550) 0 g.length i blockA).width ≤
              (blockRect (fun _ => 550) 0 g.length j blockB).left ∨
          (blockRect (fun _ => 550) 0 g.length j blockB).left +
            (blockRect (fun _ => 550) 0 g.length j blockB).width ≤
              (blockRect (fun _ => 550) 0 g.length i blockA).left) :=
  overlapping_meetings_get_disjoint_slots storeAB (fun _ => 550) "fall" 0 blockA blockB
    (by unfold ValidMeetings; decide) (Or.inl rfl) (by decide) (by norm_num)
    (by decide) (by decide) (by decide) (by decide)

/-! ## Every selected meeting is collected once -/

theorem entryBlocks_some (c : String) (e : Entry) (b : Block)
    (h : some b ∈ entryBlocks c e) :
    (b.id, Val.meeting b.meeting) ∈ e ∧ b.id ≠ "_color" ∧ b.courseCode = c ∧
      b.color = (entryColor e b.meeting.term).getD "#999999" := by
  unfold entryBlocks at h
  obtain ⟨q, hq, hb⟩ := List.mem_map.1 h
  rw [List.mem_filter] at hq
  have hne : q.1 ≠ "_color" := by simpa using hq.2
  cases hq2 : q.2 with
  | colors cs =>
    rw [hq2] at hb
    exact Option.noConfusion hb
  | meeting m =>
    rw [hq2] at hb
    simp only [Option.some.injEq] at hb
    subst hb
    refine ⟨?_, hne, rfl, rfl⟩
    have : q = (q.1, Val.meeting m) := by rw [← hq2]
    rw [← this]
    exact hq.1

theorem entryBlocks_nodup (c : String) (e : Entry) (hu : UniqueKeys e) :
    ((entryBlocks c e).filterMap id).Nodup := by
  unfold entryBlocks
  rw [List.filterMap_map]
  apply List.Nodup.filterMap
  · intro q q2 b hb hb2
    have key : ∀ q : String × Val, b ∈ (id ∘ fun p : String × Val =>
        match p.2 with
        | Val.meeting m =>
          some ({ meeting := m, id := p.1, courseCode := c,
                  color := (entryColor e m.term).getD "#999999" } : Block)
        | Val.colors _ => none) q → q = (b.id, Val.meeting b.meeting) := by
      intro q hq
      simp only [Function.comp, id] at hq
      cases hq2 : q.2 with
      | colors cs =>
        rw [hq2] at hq
        simp at hq
      | meeting m =>
        rw [hq2] at hq
        simp only [Option.mem_def, Option.some.injEq] at hq
        subst hq
        simp only
        rw [← hq2]
    rw [key q hb, key q2 hb2]
  · exact List.Nodup.filter _ (List.Nodup.of_map Prod.fst hu)

theorem allBlocks_nodup (store : Store) (hwf : StoreWF store) :
    ((allBlocks store).filterMap id).Nodup := by
  induction store with
  | nil => simp [allBlocks]
  | cons p rest ih =>
    obtain ⟨hk, he⟩ := hwf
    simp only [UniqueKeys, List.map_cons, List.nodup_cons] at hk
    have hrest : StoreWF rest := ⟨hk.2, fun q hq => he q (List.mem_cons_of_mem _ hq)⟩
    have e1 : allBlocks (p :: rest) = entryBlocks p.1 p.2 ++ allBlocks rest := by
      simp [allBlocks, List.flatMap_cons]
    rw [e1, List.filterMap_append, List.nodup_append]
    refine ⟨entryBlocks_nodup p.1 p.2 (he p (List.mem_cons_self _ _)), ih hrest, ?_⟩
    rw [List.disjoint_left]
    intro b hb1 hb2
    have hb1s : some b ∈ entryBlocks p.1 p.2 := by
      obtain ⟨ob, hob, hid⟩ := List.mem_filterMap.1 hb1
      simp only [id] at hid
      rw [← hid]
      exact hob
    have hb2s : some b ∈ allBlocks rest := by
      obtain ⟨ob, hob, hid⟩ := List.mem_filterMap.1 hb2
      simp only [id] at hid
      rw [← hid]
      exact hob
    obtain ⟨q, hq, hbq⟩ := List.mem_flatMap.1 hb2s
    have c1 := (entryBlocks_some p.1 p.2 b hb1s).2.2.1
    have c2 := (entryBlocks_some q.1 q.2 b hbq).2.2.1
    apply hk.1
    rw [← c1, c2]
    exact List.mem_map.2 ⟨q, hq, rfl⟩

theorem dayBlocks_nodup (store : Store) (hwf : StoreWF store) (term : String) (d : Nat) :
    (dayBlocks (allBlocks store) term d).Nodup :=
  List.Nodup.filter _ (allBlocks_nodup store hwf)

/-! ## Groups with several members are linked by overlaps -/

theorem linked_addToGroups (b : Block) (groups : List (List Block))
    (hl : Linked groups) (hb : b ∉ groups.flatten) : Linked (addToGroups b groups) := by
  induction groups with
  | nil =>
    intro g hg hlen
    simp only [addToGroups, List.mem_singleton] at hg
    subst hg
    simp at hlen
  | cons g0 rest ih =>
    have hb0 : b ∉ g0 := fun h => hb (by simp [h])
    have hbr : b ∉ rest.flatten := fun h => hb (by
      rw [List.flatten_cons]
      exact List.mem_append_right _ h)
    by_cases hany : g0.any (fun z => isOverlap z b) = true
    · simp only [addToGroups, hany, if_true]
      intro g hg hlen x hx
      rcases List.mem_cons.1 hg with hg | hg
      · subst hg
        obtain ⟨z, hz, hzb⟩ := List.any_eq_true.1 hany
        rcases List.mem_append.1 hx with h1 | h1
        · by_cases hlen0 : 1 < g0.length
          · obtain ⟨y, hy, hne, hov⟩ := hl g0 (List.mem_cons_self _ _) hlen0 x h1
            exact ⟨y, List.mem_append_left _ hy, hne, hov⟩
          · have hxz : z = x := by
              match g0, hlen0, h1, hz with
              | [w], _, h1, hz =>
                simp only [List.mem_singleton] at h1 hz
                rw [h1, hz]
              | [], _, h1, _ => simp at h1
              | _ :: _ :: _, hlen0, _, _ => simp at hlen0
            subst hxz
            refine ⟨b, by simp, ?_, hzb⟩
            intro h
            exact hb0 (h ▸ hz)
        · simp only [List.mem_singleton] at h1
          subst h1
          refine ⟨z, List.mem_append_left _ hz, ?_, ?_⟩
          · intro h
            exact hb0 (h ▸ hz)
          · rw [isOverlap_comm]
            exact hzb
      · exact hl g (List.mem_cons_of_mem _ hg) hlen x hx
    · rw [Bool.not_eq_true] at hany
      simp only [addToGroups, hany, Bool.false_eq_true, if_false]
      intro g hg hlen x hx
      rcases List.mem_cons.1 hg with hg | hg
      · subst hg
        exact hl g (List.mem_cons_self _ _) hlen x hx
      · exact ih (fun g hg => hl g (List.mem_cons_of_mem _ hg)) hbr g hg hlen x hx

theorem linked_groupFrom (blocks : List Block) (groups : List (List Block))
    (hl : Linked groups) (hnd : (groups.flatten ++ blocks).Nodup) :
    Linked (groupFrom groups blocks) := by
  induction blocks generalizing groups with
  | nil => simpa [groupFrom] using hl
  | cons b rest ih =>
    have h2 : (groupFrom groups (b :: rest)) = groupFrom (addToGroups b groups) rest := rfl
    rw [h2]
    have hb : b ∉ groups.flatten := by
      intro h
      have := (List.nodup_append.1 hnd).2.2
      exact (List.disjoint_left.1 this) h (List.mem_cons_self _ _)
    apply ih
    · exact linked_addToGroups b groups hl hb
    · have hp : ((addToGroups b groups).flatten ++ rest).Perm (groups.flatten ++ b :: rest) := by
        have := (flatten_addToGroups b groups).append_right rest
        simpa using this
      exact (hp.nodup_iff).2 hnd

theorem conflictGroups_linked (blocks : List Block) (hnd : blocks.Nodup) :
    Linked (conflictGroups blocks) := by
  apply linked_groupFrom
  · intro g hg
    simp at hg
  · simp only [List.flatten_nil, List.nil_append]
    exact ((List.perm_insertionSort _ blocks).nodup_iff).2 hnd

/-- A block of a duplicate-free list lies in exactly one group. -/
theorem conflictGroups_group_unique (blocks : List Block) (hnd : blocks.Nodup)
    (g g2 : List Block) (hg : g ∈ conflictGroups blocks) (hg2 : g2 ∈ conflictGroups blocks)
    (a : Block) (ha : a ∈ g) (ha2 : a ∈ g2) : g = g2 := by
  by_contra hne
  have hfl : (conflictGroups blocks).flatten.Nodup :=
    ((conflictGroups_perm blocks).nodup_iff).2 hnd
  have hpw := (List.nodup_flatten.1 hfl).2
  have hsymm : Symmetric (List.Disjoint : List Block → List Block → Prop) :=
    fun _ _ h => h.symm
  have := List.Pairwise.forall hsymm hpw hg hg2 hne
  exact (List.disjoint_left.1 this) ha ha2

/-- C2: in a well-formed store with valid terms and days, a selected meeting is drawn as a
conflict block (group of more than one member, colour `#CC3939`, sub-slot step
`columnWidth / group size`) exactly when it overlaps, under `isOverlap`, another selected
meeting of the same term and day; otherwise it is alone in its group and keeps its course
colour.  Meetings 10:00-11:00 and 10:30-11:30 form one group of size 2; meetings 9:00-10:00
and 10:00-11:00 form two singleton groups. -/
theorem conflict_block_iff_overlaps_another (store : Store) (clientWidth : String → ℚ)
    (term : String) (d : Nat) (a : Block)
    (hwf : StoreWF store) (hvalid : ValidMeetings store)
    (hterm : term = "fall" ∨ term = "winter") (hd : d < 5)
    (ha : a ∈ dayBlocks (allBlocks store) term d) :
    (∃ table rects, byTermAndDay (allBlocks store) = some table ∧
      renderSelectedMeetings store clientWidth = some rects ∧
      (∃ g ∈ conflictGroups (table.bucket term d), ∃ i : Nat, g[i]? = some a ∧
        blockRect clientWidth d g.length i a ∈ rects) ∧
      ∀ g ∈ conflictGroups (table.bucket term d), ∀ i : Nat, g[i]? = some a →
        ((blockRect clientWidth d g.length i a).isConflict = true ↔
          ∃ b ∈ dayBlocks (allBlocks store) term d, b ≠ a ∧ isOverlap a b = true) ∧
        ((blockRect clientWidth d g.length i a).isConflict = true →
          1 < g.length ∧ (blockRect clientWidth d g.length i a).color = "#CC3939" ∧
          (blockRect clientWidth d g.length i a).left =
            50 + ((d : ℚ) * ((clientWidth (term ++ "-timetable") - 50) / 5) +
              (i : ℚ) * ((clientWidth (term ++ "-timetable") - 50) / 5 / (g.length : ℚ))) ∧
          (blockRect clientWidth d g.length i a).width =
            (clientWidth (term ++ "-timetable") - 50) / 5 / (g.length : ℚ) - 1) ∧
        ((blockRect clientWidth d g.length i a).isConflict = false →
          g = [a] ∧ (blockRect clientWidth d g.length i a).color = a.color)) ∧
    (∀ x y : Block, x.start = 36000000 → x.end_ = 39600000 →
      y.start = 37800000 → y.end_ = 41400000 →
        conflictGroups [x, y] = [[x, y]] ∧ conflictGroups [y, x] = [[x, y]]) ∧
    (∀ x y : Block, x.start = 32400000 → x.end_ = 36000000 →
      y.start = 36000000 → y.end_ = 39600000 →
        conflictGroups [x, y] = [[x], [y]] ∧ conflictGroups [y, x] = [[x], [y]]) := by
  refine ⟨?_, ?_, ?_⟩
  · obtain ⟨table, htable⟩ := byTermAndDay_ok store hvalid
    have hbucket := byTermAndDay_bucket (allBlocks store) table htable term hterm d hd
    have hnd := dayBlocks_nodup store hwf term d
    have hat : a.term = term := by
      have := (List.mem_filter.1 ha).2
      simp only [decide_eq_true_eq] at this
      exact this.1
    rw [← hbucket] at ha hnd
    obtain ⟨g0, hg0, hag0⟩ :=
      List.mem_flatten.1 (((conflictGroups_perm (table.bucket term d)).mem_iff).2 ha)
    obtain ⟨i0, hi0⟩ := List.getElem?_of_mem hag0
    obtain ⟨rects, hr, hra⟩ :=
      mem_renderSelectedMeetings store clientWidth table htable term hterm d hd g0 hg0 i0 a hi0
    refine ⟨table, rects, htable, hr, ⟨g0, hg0, i0, hi0, hra⟩, ?_⟩
    intro g hg i hi
    have hag : a ∈ g := List.getElem?_mem hi
    have hconf : (blockRect clientWidth d g.length i a).isConflict = true ↔ 1 < g.length := by
      simp [blockRect]
    refine ⟨?_, ?_, ?_⟩
    · rw [hconf, ← hbucket]
      constructor
      · intro hlen
        obtain ⟨y, hy, hne, hov⟩ := conflictGroups_linked _ hnd g hg hlen a hag
        refine ⟨y, ?_, hne, hov⟩
        exact ((conflictGroups_perm (table.bucket term d)).mem_iff).1
          (List.mem_flatten.2 ⟨g, hg, hy⟩)
      · rintro ⟨b, hb, hne, hov⟩
        obtain ⟨g2, hg2, ha2, hb2⟩ :=
          conflictGroups_same_group (table.bucket term d) a b ha hb hov
        have hgg : g = g2 := conflictGroups_group_unique _ hnd g g2 hg hg2 a hag ha2
        subst hgg
        match g, hag, hb2 with
        | [], hag, _ => simp at hag
        | [w], hag, hb2 =>
          simp only [List.mem_singleton] at hag hb2
          exact absurd (hb2.trans hag.symm) hne
        | _ :: _ :: _, _, _ => simp
    · intro hc
      have hlen := hconf.1 hc
      refine ⟨hlen, ?_, ?_, ?_⟩
      · simp [blockRect, hlen]
      · simp [blockRect, hat]
      · simp [blockRect, hat]
    · intro hc
      have hlen : ¬ 1 < g.length := by
        intro h
        rw [hconf.2 h] at hc
        exact Bool.noConfusion hc
      constructor
      · match g, hag, hlen with
        | [], hag, _ => simp at hag
        | [w], hag, _ =>
          simp only [List.mem_singleton] at hag
          rw [hag]
        | _ :: _ :: _, _, hlen => simp at hlen
      · simp [blockRect, hlen]
  · intro x y h1 h2 h3 h4
    simp [conflictGroups, List.insertionSort, List.orderedInsert, addToGroups, isOverlap,
      h1, h2, h3, h4]
  · intro x y h1 h2 h3 h4
    simp [conflictGroups, List.insertionSort, List.orderedInsert, addToGroups, isOverlap,
      h1, h2, h3, h4]

/-- Witness for C2: the first meeting of `storeAB`. -/
theorem conflict_block_iff_overlaps_another_witness :
    blockA ∈ dayBlocks (allBlocks storeAB) "fall" 0 ∧
    ∃ table rects, byTermAndDay (allBlocks storeAB) = some table ∧
      renderSelectedMeetings storeAB (fun _ => 550) = some rects ∧
      ∃ g ∈ conflictGroups (table.bucket "fall" 0), ∃ i : Nat, g[i]? = some blockA ∧
        blockRect (fun _ => 550) 0 g.length i blockA ∈ rects :=
  ⟨by decide,
    match (conflict_block_iff_overlaps_another storeAB (fun _ => 550) "fall" 0 blockA
      (by unfold StoreWF UniqueKeys; decide) (by unfold ValidMeetings; decide)
      (Or.inl rfl) (by decide) (by decide)).1 with
    | ⟨table, rects, h1, h2, h3, _⟩ => ⟨table, rects, h1, h2, h3⟩⟩

/-! ## One rectangle per collected block -/

theorem rectsFrom_blocks (clientWidth : String → ℚ) (dayIndex size k : Nat)
    (group : List Block) :
    (rectsFrom clientWidth dayIndex size k group).map Rect.block = group := by
  induction group generalizing k with
  | nil => rfl
  | cons b rest ih => simp [rectsFrom, blockRect, ih]

theorem cellRects_blocks (clientWidth : String → ℚ) (table : Table) (term : String)
    (d : Nat) :
    (cellRects clientWidth table term d).map Rect.block =
      (conflictGroups (table.bucket term d)).flatten := by
  unfold cellRects groupRects
  rw [List.map_flatMap, List.flatMap_def]
  congr 1
  have h : ∀ g ∈ conflictGroups (table.bucket term d),
      (fun a : List Block => List.map Rect.block (rectsFrom clientWidth d a.length 0 a)) g
        = id g := fun g _ => rectsFrom_blocks clientWidth d g.length 0 g
  rw [List.map_congr_left h, List.map_id]

theorem count_filter_ite (p : Block → Bool) (a : Block) (l : List Block) :
    List.count a (l.filter p) = if p a = true then List.count a l else 0 := by
  by_cases h : p a = true
  · rw [if_pos h]
    exact List.count_filter h
  · rw [if_neg h]
    apply List.count_eq_zero.2
    intro hm
    exact h (List.mem_filter.1 hm).2

/-- Blocks that all have a bucket are split by the ten buckets without loss or repetition. -/
theorem buckets_perm (l : List Block)
    (hv : ∀ b ∈ l, (b.term = "fall" ∨ b.term = "winter") ∧ 0 ≤ b.dayIndex ∧ b.dayIndex < 5) :
    (["fall", "winter"].flatMap (fun t => (List.range 5).flatMap (fun d =>
      l.filter (fun b => decide (b.term = t ∧ b.dayIndex = (d : Int)))))).Perm l := by
  rw [List.perm_iff_count]
  intro a
  have hr : List.range 5 = [0, 1, 2, 3, 4] := by decide
  rw [hr]
  simp only [List.count_flatMap, List.map_cons, List.map_nil, List.sum_cons, List.sum_nil,
    Function.comp, count_filter_ite, decide_eq_true_eq]
  by_cases hmem : a ∈ l
  · obtain ⟨ht, h0, h5⟩ := hv a hmem
    have hday : a.dayIndex = 0 ∨ a.dayIndex = 1 ∨ a.dayIndex = 2 ∨ a.dayIndex = 3 ∨
        a.dayIndex = 4 := by omega
    rcases ht with ht | ht <;> rcases hday with hd | hd | hd | hd | hd <;> simp [ht, hd]
  · have hz : List.count a l = 0 := List.count_eq_zero.2 hmem
    simp [hz]

theorem render_blocks_perm (store : Store) (clientWidth : String → ℚ) (table : Table)
    (ht : byTermAndDay (allBlocks store) = some table) (hvalid : ValidMeetings store) :
    ∃ rects, renderSelectedMeetings store clientWidth = some rects ∧
      (rects.map Rect.block).Perm ((allBlocks store).filterMap id) := by
  unfold renderSelectedMeetings
  rw [ht]
  refine ⟨_, rfl, ?_⟩
  have hv : ∀ b ∈ (allBlocks store).filterMap id,
      (b.term = "fall" ∨ b.term = "winter") ∧ 0 ≤ b.dayIndex ∧ b.dayIndex < 5 := by
    intro b hb
    obtain ⟨ob, hob, hid⟩ := List.mem_filterMap.1 hb
    simp only [id] at hid
    obtain ⟨b2, hb2, h⟩ := allBlocks_placeable store hvalid ob hob
    rw [hid] at hb2
    rw [Option.some.inj hb2]
    exact h
  refine List.Perm.trans ?_ (buckets_perm _ hv)
  rw [List.map_flatMap]
  apply List.Perm.flatMap_left
  intro t htm
  have hterm : t = "fall" ∨ t = "winter" := by simpa using htm
  rw [List.map_flatMap]
  apply List.Perm.flatMap_left
  intro d hdm
  have hd : d < 5 := List.mem_range.1 hdm
  rw [cellRects_blocks, byTermAndDay_bucket (allBlocks store) table ht t hterm d hd]
  exact conflictGroups_perm _

theorem mem_allBlocks_iff (store : Store) (b : Block) :
    some b ∈ allBlocks store ↔
      ∃ p ∈ store, (b.id, Val.meeting b.meeting) ∈ p.2 ∧ b.id ≠ "_color" ∧
        b.courseCode = p.1 ∧ b.color = (entryColor p.2 b.meeting.term).getD "#999999" := by
  constructor
  · intro h
    obtain ⟨p, hp, hb⟩ := List.mem_flatMap.1 h
    exact ⟨p, hp, entryBlocks_some p.1 p.2 b hb⟩
  · rintro ⟨p, hp, hmem, hne, hc, hcol⟩
    apply List.mem_flatMap.2
    refine ⟨p, hp, ?_⟩
    unfold entryBlocks
    apply List.mem_map.2
    refine ⟨(b.id, Val.meeting b.meeting), ?_, ?_⟩
    · rw [List.mem_filter]
      exact ⟨hmem, by simpa using hne⟩
    · simp only
      rw [← hc, ← hcol]

theorem mem_dayBlocks_iff (blocks : List (Option Block)) (term : String) (d : Nat)
    (b : Block) :
    b ∈ dayBlocks blocks term d ↔
      some b ∈ blocks ∧ b.meeting.term = term ∧ b.meeting.day = (d : Int) + 1 := by
  unfold dayBlocks
  rw [List.mem_filter, List.mem_filterMap]
  simp only [id, exists_eq_right, decide_eq_true_eq, Block.term, Block.dayIndex]
  constructor
  · rintro ⟨h1, h2, h3⟩
    exact ⟨h1, h2, by omega⟩
  · rintro ⟨h1, h2, h3⟩
    exact ⟨h1, h2, by omega⟩

theorem filterMap_id_length (l : List (Option Block)) (h : ∀ ob ∈ l, PlaceableBlock ob) :
    (l.filterMap id).length = l.length := by
  induction l with
  | nil => rfl
  | cons ob rest ih =>
    obtain ⟨b, hb, _⟩ := h ob (List.mem_cons_self _ _)
    subst hb
    simp [List.filterMap_cons, ih (fun o ho => h o (List.mem_cons_of_mem _ ho))]

theorem allBlocks_length (store : Store) :
    (allBlocks store).length =
      (store.flatMap (fun p => p.2.filter (fun q => decide (q.1 ≠ "_color")))).length := by
  induction store with
  | nil => rfl
  | cons p rest ih =>
    have e1 : allBlocks (p :: rest) = entryBlocks p.1 p.2 ++ allBlocks rest := by
      simp [allBlocks, List.flatMap_cons]
    rw [e1, List.flatMap_cons, List.length_append, List.length_append, ih]
    simp [entryBlocks]

/-- C3: in a well-formed store whose meetings all have a term in fall/winter and a day in
1..5, the conflict groups of a term and weekday contain exactly the selected meetings of
that term and day, each once: their concatenation is a duplicate-free permutation of the
collected list, a collected block is exactly a stored meeting under a key other than
`_color`, and one rectangle is drawn per selected meeting. -/
theorem groups_hold_each_selected_meeting_once (store : Store) (clientWidth : String → ℚ)
    (term : String) (d : Nat)
    (hwf : StoreWF store) (hvalid : ValidMeetings store)
    (hterm : term = "fall" ∨ term = "winter") (hd : d < 5) :
    ∃ table rects, byTermAndDay (allBlocks store) = some table ∧
      renderSelectedMeetings store clientWidth = some rects ∧
      (conflictGroups (table.bucket term d)).flatten.Perm
        (dayBlocks (allBlocks store) term d) ∧
      (conflictGroups (table.bucket term d)).flatten.Nodup ∧
      (∀ b : Block, b ∈ dayBlocks (allBlocks store) term d ↔
        (∃ p ∈ store, (b.id, Val.meeting b.meeting) ∈ p.2 ∧ b.id ≠ "_color" ∧
          b.courseCode = p.1 ∧ b.color = (entryColor p.2 b.meeting.term).getD "#999999") ∧
        b.meeting.term = term ∧ b.meeting.day = (d : Int) + 1) ∧
      ((cellRects clientWidth table term d).map Rect.block).Perm
        (dayBlocks (allBlocks store) term d) ∧
      (rects.map Rect.block).Perm ((allBlocks store).filterMap id) ∧
      rects.length =
        (store.flatMap (fun p => p.2.filter (fun q => decide (q.1 ≠ "_color")))).length := by
  obtain ⟨table, htable⟩ := byTermAndDay_ok store hvalid
  obtain ⟨rects, hr, hperm⟩ := render_blocks_perm store clientWidth table htable hvalid
  have hbucket := byTermAndDay_bucket (allBlocks store) table htable term hterm d hd
  have hp : (conflictGroups (table.bucket term d)).flatten.Perm
      (dayBlocks (allBlocks store) term d) := by
    rw [← hbucket]
    exact conflictGroups_perm _
  refine ⟨table, rects, htable, hr, hp, ?_, ?_, ?_, hperm, ?_⟩
  · exact (hp.nodup_iff).2 (dayBlocks_nodup store hwf term d)
  · intro b
    rw [mem_dayBlocks_iff, mem_allBlocks_iff]
  · rw [cellRects_blocks]
    exact hp
  · have h1 : rects.length = (rects.map Rect.block).length := by simp
    rw [h1, hperm.length_eq, filterMap_id_length _ (allBlocks_placeable store hvalid),
      allBlocks_length]

/-- Witness for C3: the Monday fall bucket of `storeAB`. -/
theorem groups_hold_each_selected_meeting_once_witness :
    ∃ table rects, byTermAndDay (allBlocks storeAB) = some table ∧
      renderSelectedMeetings storeAB (fun _ => 550) = some rects ∧
      (conflictGroups (table.bucket "fall" 0)).flatten.Perm
        (dayBlocks (allBlocks storeAB) "fall" 0) ∧
      rects.length = 2 :=
  match groups_hold_each_selected_meeting_once storeAB (fun _ => 550) "fall" 0
      (by unfold StoreWF UniqueKeys; decide) (by unfold ValidMeetings; decide)
      (Or.inl rfl) (by decide) with
  | ⟨table, rects, h1, h2, h3, _, _, _, _, h8⟩ => ⟨table, rects, h1, h2, h3, h8⟩

/-! ## Merging an imported mapping -/

theorem jsSet_of_get {α : Type} (o : List (String × α)) (k : String) (v : α)
    (h : jsGet o k = some v) : jsSet o k v = o := by
  induction o with
  | nil => simp [jsGet] at h
  | cons p o ih =>
    obtain ⟨k', v'⟩ := p
    by_cases h1 : k' = k
    · simp only [jsGet, h1, if_true, Option.some.injEq] at h
      simp [jsSet, h1, h]
    · simp only [jsGet, h1, if_false] at h
      simp [jsSet, h1, ih h]

theorem objectAssign_cons (target : Entry) (q : String × Val) (rest : Entry) :
    objectAssign target (q :: rest) =
      objectAssign (if q.1 = "__proto__" then target else jsSet target q.1 q.2) rest := rfl

theorem objectAssign_of_get (source target : Entry)
    (h : ∀ q ∈ source, q.1 ≠ "__proto__" → jsGet target q.1 = some q.2) :
    objectAssign target source = target := by
  induction source with
  | nil => rfl
  | cons q rest ih =>
    rw [objectAssign_cons]
    have hrest := ih (fun r hr => h r (List.mem_cons_of_mem _ hr))
    by_cases hq : q.1 = "__proto__"
    · rw [if_pos hq]
      exact hrest
    · rw [if_neg hq, jsSet_of_get target q.1 q.2 (h q (List.mem_cons_self _ _) hq)]
      exact hrest

theorem mergeImported_cons (store : Store) (p : String × Entry) (rest : Store) :
    mergeImported store (p :: rest) =
      (mergeCourse store p.1 p.2).bind (fun s => mergeImported s rest) := by
  unfold mergeImported
  rw [List.foldlM_cons]
  rfl

theorem mergeCourse_of_get (store : Store) (c : String) (e : Entry)
    (hu : UniqueKeys e) (h : jsGet store c = some e) : mergeCourse store c e = some store := by
  unfold mergeCourse
  simp only [h]
  rw [objectAssign_of_get e e (fun q hq _ => jsGet_of_mem e q.1 q.2 hu hq),
    jsSet_of_get store c e h]

theorem mergeImported_of_get (imported store : Store)
    (h : ∀ p ∈ imported, UniqueKeys p.2 ∧ jsGet store p.1 = some p.2) :
    mergeImported store imported = some store := by
  induction imported with
  | nil => rfl
  | cons p rest ih =>
    obtain ⟨hu, hg⟩ := h p (List.mem_cons_self _ _)
    rw [mergeImported_cons, mergeCourse_of_get store p.1 p.2 hu hg, Option.some_bind]
    exact ih (fun r hr => h r (List.mem_cons_of_mem _ hr))

theorem mergeImported_self (store : Store) (hwf : StoreWF store) :
    mergeImported store store = some store :=
  mergeImported_of_get store store
    (fun p hp => ⟨hwf.2 p hp, jsGet_of_mem store p.1 p.2 hwf.1 hp⟩)

/-- C4: for a store that can be encoded, exporting it and immediately importing the exported
text leaves the store unchanged (same courses, same meeting keys and values, same colours),
whenever decoding inverts encoding. -/
theorem import_of_export_keeps_store (encode : Store → Option String)
    (decode : String → Option Store) (clientWidth : String → ℚ) (store : Store)
    (text : String)
    (hcodec : ∀ s t, encode s = some t → decode t = some s)
    (hwf : StoreWF store)
    (hexport : exportSelectedMeetings encode store = some text) :
    (importSelectedMeetings decode clientWidth store text).1 = store := by
  unfold exportSelectedMeetings at hexport
  unfold importSelectedMeetings
  rw [hcodec store text hexport]
  simp only [mergeImported_self store hwf]
  split
  · rfl
  · cases renderSelectedMeetings store clientWidth <;> rfl

/-- Witness for C4: `storeAB` with its real exported text. -/
theorem import_of_export_keeps_store_witness :
    (∀ s t, encodeAB s = some t → decodeAB t = some s) ∧
    exportSelectedMeetings encodeAB storeAB = some textAB ∧
    (importSelectedMeetings decodeAB (fun _ => 550) storeAB textAB).1 = storeAB :=
  have hcodec : ∀ s t, encodeAB s = some t → decodeAB t = some s := by
    intro s t h
    unfold encodeAB at h
    split at h
    · rename_i hs
      simp only [Option.some.injEq] at h
      subst h
      subst hs
      simp [decodeAB]
    · exact Option.noConfusion h
  ⟨hcodec, by simp [exportSelectedMeetings, encodeAB],
    import_of_export_keeps_store encodeAB decodeAB (fun _ => 550) storeAB textAB hcodec
      (by unfold StoreWF UniqueKeys; decide) (by simp [exportSelectedMeetings, encodeAB])⟩

/-- An import whose text cannot be decoded reports `Invalid import` and returns the store
it was given. -/
theorem import_undecodable_keeps_store (decode : String → Option Store)
    (clientWidth : String → ℚ) (store : Store) (text : String) (h : decode text = none) :
    importSelectedMeetings decode clientWidth store text =
      (store, ImportOutcome.invalidImport) := by
  unfold importSelectedMeetings
  rw [h]

set_option maxRecDepth 100000 in
/-- C5, evaluated at the failing input: importing a decodable text whose only meeting has
day 9 into the empty store ends with `Invalid import` (the redraw throws at the bucket
indexing), yet the store afterwards holds the imported course. -/
theorem import_reports_invalid_after_merging :
    importSelectedMeetings decodeDay9 (fun _ => 550) [] textDay9 =
        (importDay9, ImportOutcome.invalidImport) ∧
      importDay9 ≠ ([] : Store) := by
  decide

theorem jsGet_objectAssign_other (source target : Entry) (k : String)
    (h : k ∉ source.map Prod.fst ∨ k = "__proto__") :
    jsGet (objectAssign target source) k = jsGet target k := by
  induction source generalizing target with
  | nil => rfl
  | cons q rest ih =>
    rw [objectAssign_cons]
    have hrest : k ∉ rest.map Prod.fst ∨ k = "__proto__" := by
      rcases h with h | h
      · simp only [List.map_cons, List.mem_cons, not_or] at h
        exact Or.inl h.2
      · exact Or.inr h
    by_cases hq : q.1 = "__proto__"
    · rw [if_pos hq]
      exact ih target hrest
    · rw [if_neg hq, ih _ hrest]
      apply jsGet_jsSet_other
      intro he
      rcases h with h | h
      · simp only [List.map_cons, List.mem_cons, not_or] at h
        exact h.1 he.symm
      · exact hq (he.trans h)

theorem jsGet_objectAssign_mem (source target : Entry) (k : String) (v : Val)
    (hu : UniqueKeys source) (h : (k, v) ∈ source) (hk : k ≠ "__proto__") :
    jsGet (objectAssign target source) k = some v := by
  induction source generalizing target with
  | nil => simp at h
  | cons q rest ih =>
    simp only [UniqueKeys, List.map_cons, List.nodup_cons] at hu
    rw [objectAssign_cons]
    rcases List.mem_cons.1 h with h1 | h1
    · subst h1
      rw [if_neg hk, jsGet_objectAssign_other rest _ k (Or.inl hu.1)]
      exact jsGet_jsSet_same target k v
    · exact ih _ hu.2 h1

theorem mergeCourse_sameExcept (store s2 : Store) (c : String) (e : Entry)
    (h : mergeCourse store c e = some s2) : SameExcept c store s2 := by
  intro c2 hc2
  have hne : c ≠ c2 := fun he => hc2 he.symm
  unfold mergeCourse at h
  cases hg : jsGet store c with
  | some target =>
    simp only [hg, Option.some.injEq] at h
    rw [← h]
    exact jsGet_jsSet_other store c c2 _ hne
  | none =>
    simp only [hg] at h
    split at h
    · split at h
      · rw [← Option.some.inj h]
      · exact Option.noConfusion h
    · rw [← Option.some.inj h, jsGet_jsSet_other _ c c2 _ hne, jsGet_jsSet_other _ c c2 _ hne]

theorem mergeCourse_get (store s2 : Store) (c : String) (e : Entry)
    (h : mergeCourse store c e = some s2)
    (hc : (jsGet store c).isSome = true ∨ c ∉ prototypeKeys) :
    jsGet s2 c = some (objectAssign ((jsGet store c).getD []) e) := by
  unfold mergeCourse at h
  cases hg : jsGet store c with
  | some target =>
    simp only [hg, Option.some.injEq] at h
    rw [← h]
    exact jsGet_jsSet_same _ _ _
  | none =>
    have hplain : c ∉ prototypeKeys := by
      rcases hc with hc | hc
      · rw [hg] at hc
        exact absurd hc (by simp)
      · exact hc
    simp only [hg, hplain, if_false, Option.some.injEq] at h
    rw [← h]
    exact jsGet_jsSet_same _ _ _

theorem mergeCourse_ok (store : Store) (c : String) (e : Entry)
    (hc : (jsGet store c).isSome = true ∨ c ∉ prototypeKeys ∨ e = []) :
    ∃ s2, mergeCourse store c e = some s2 := by
  unfold mergeCourse
  cases hg : jsGet store c with
  | some target => exact ⟨_, rfl⟩
  | none =>
    simp only
    by_cases hp : c ∈ prototypeKeys
    · rw [if_pos hp]
      rcases hc with hc | hc | hc
      · rw [hg] at hc
        exact absurd hc (by simp)
      · exact absurd hp hc
      · rw [if_pos hc]
        exact ⟨_, rfl⟩
    · rw [if_neg hp]
      exact ⟨_, rfl⟩

theorem mergeCourse_keeps_present (store s2 : Store) (c c2 : String) (e : Entry)
    (h : mergeCourse store c e = some s2) (hp : (jsGet store c2).isSome = true) :
    (jsGet s2 c2).isSome = true := by
  by_cases hcc : c2 = c
  · subst hcc
    rw [mergeCourse_get store s2 c2 e h (Or.inl hp)]
    rfl
  · rw [mergeCourse_sameExcept store s2 c e h c2 hcc]
    exact hp

theorem mergeImported_cons_some (store s2 : Store) (p : String × Entry) (rest : Store)
    (h : mergeImported store (p :: rest) = some s2) :
    ∃ s1, mergeCourse store p.1 p.2 = some s1 ∧ mergeImported s1 rest = some s2 := by
  rw [mergeImported_cons] at h
  cases h1 : mergeCourse store p.1 p.2 with
  | none =>
    rw [h1] at h
    exact Option.noConfusion h
  | some s1 =>
    rw [h1, Option.some_bind] at h
    exact ⟨s1, rfl, h⟩

theorem jsGet_mergeImported_other (imported store s2 : Store) (c : String)
    (hm : mergeImported store imported = some s2) (h : c ∉ imported.map Prod.fst) :
    jsGet s2 c = jsGet store c := by
  induction imported generalizing store with
  | nil =>
    have : store = s2 := Option.some.inj hm
    rw [this]
  | cons p rest ih =>
    simp only [List.map_cons, List.mem_cons, not_or] at h
    obtain ⟨s1, h1, h2⟩ := mergeImported_cons_some store s2 p rest hm
    rw [ih s1 h2 h.2]
    exact mergeCourse_sameExcept store s1 p.1 p.2 h1 c h.1

theorem jsGet_mergeImported_mem (imported store s2 : Store) (c : String) (e : Entry)
    (hm : mergeImported store imported = some s2)
    (hu : UniqueKeys imported) (h : (c, e) ∈ imported)
    (hc : (jsGet store c).isSome = true ∨ c ∉ prototypeKeys) :
    jsGet s2 c = some (objectAssign ((jsGet store c).getD []) e) := by
  induction imported generalizing store with
  | nil => simp at h
  | cons p rest ih =>
    simp only [UniqueKeys, List.map_cons, List.nodup_cons] at hu
    obtain ⟨s1, h1, h2⟩ := mergeImported_cons_some store s2 p rest hm
    rcases List.mem_cons.1 h with hp | hp
    · subst hp
      rw [jsGet_mergeImported_other rest s1 s2 c h2 hu.1]
      exact mergeCourse_get store s1 c e h1 hc
    · have hne : c ≠ p.1 := by
        intro he
        apply hu.1
        rw [← he]
        exact List.mem_map.2 ⟨(c, e), hp, rfl⟩
      have hsame := mergeCourse_sameExcept store s1 p.1 p.2 h1 c hne
      rw [ih s1 h2 hu.2 hp (by rw [hsame]; exact hc), hsame]

theorem mergeImported_ok (imported store : Store)
    (h : ∀ p ∈ imported,
      (jsGet store p.1).isSome = true ∨ p.1 ∉ prototypeKeys ∨ p.2 = []) :
    ∃ s2, mergeImported store imported = some s2 := by
  induction imported generalizing store with
  | nil => exact ⟨store, rfl⟩
  | cons p rest ih =>
    obtain ⟨s1, h1⟩ := mergeCourse_ok store p.1 p.2 (h p (List.mem_cons_self _ _))
    have hrest : ∀ q ∈ rest,
        (jsGet s1 q.1).isSome = true ∨ q.1 ∉ prototypeKeys ∨ q.2 = [] := by
      intro q hq
      rcases h q (List.mem_cons_of_mem _ hq) with hq1 | hq1
      · exact Or.inl (mergeCourse_keeps_present store s1 p.1 q.1 p.2 h1 hq1)
      · exact Or.inr hq1
    obtain ⟨s2, h2⟩ := ih s1 hrest
    refine ⟨s2, ?_⟩
    rw [mergeImported_cons, h1, Option.some_bind]
    exact h2

theorem importSelectedMeetings_store (decode : String → Option Store)
    (clientWidth : String → ℚ) (store imported merged : Store) (text : String)
    (h : decode text = some imported) (hm : mergeImported store imported = some merged) :
    (importSelectedMeetings decode clientWidth store text).1 = merged := by
  unfold importSelectedMeetings
  rw [h]
  simp only [hm]
  split
  · rfl
  · cases renderSelectedMeetings merged clientWidth <;> rfl

set_option maxRecDepth 100000 in
/-- C6, counterexample: importing a mapping whose course code is `constructor` into the
empty store creates no course, because line 666 reads the inherited property; and an
imported key `__proto__` is no own key of the course afterwards, because its write replaced
the prototype of the entry. -/
theorem import_skips_inherited_names :
    (decodeCtor textCtor = some [("constructor", [])] ∧
      jsGet (importSelectedMeetings decodeCtor (fun _ => 550) [] textCtor).1 "constructor"
        = none) ∧
    (decodeProto textProto = some [("CSC108H1", [("__proto__", Val.meeting meetingA)])] ∧
      jsGet (importSelectedMeetings decodeProto (fun _ => 550) [] textProto).1 "CSC108H1"
        = some []) := by
  decide

/-- C6, amended: for a decoded mapping whose course codes are each in the store already, or
not the name of an inherited property, or given no properties: after
`importSelectedMeetings` every imported course code of the first two kinds is in the store,
each of its imported keys other than `__proto__` maps to its imported value, every other
key of that course (also `__proto__`) reads as before, and every course the import does not
name is unchanged. -/
theorem import_merges_key_by_key (decode : String → Option Store)
    (clientWidth : String → ℚ) (store imported : Store) (text : String)
    (hdecode : decode text = some imported) (hwf : StoreWF imported)
    (hcodes : ∀ p ∈ imported,
      (jsGet store p.1).isSome = true ∨ p.1 ∉ prototypeKeys ∨ p.2 = []) :
    (∀ c e, (c, e) ∈ imported → (jsGet store c).isSome = true ∨ c ∉ prototypeKeys →
      ∃ e2, jsGet (importSelectedMeetings decode clientWidth store text).1 c = some e2 ∧
        (∀ k v, (k, v) ∈ e → k ≠ "__proto__" → jsGet e2 k = some v) ∧
        (∀ k, k ∉ e.map Prod.fst ∨ k = "__proto__" →
          jsGet e2 k = jsGet ((jsGet store c).getD []) k)) ∧
    (∀ c, c ∉ imported.map Prod.fst →
      jsGet (importSelectedMeetings decode clientWidth store text).1 c = jsGet store c) := by
  obtain ⟨merged, hm⟩ := mergeImported_ok imported store hcodes
  rw [importSelectedMeetings_store decode clientWidth store imported merged text hdecode hm]
  constructor
  · intro c e hce hc
    refine ⟨_, jsGet_mergeImported_mem imported store merged c e hm hwf.1 hce hc, ?_, ?_⟩
    · intro k v hkv hk
      exact jsGet_objectAssign_mem e _ k v (hwf.2 (c, e) hce) hkv hk
    · intro k hk
      exact jsGet_objectAssign_other e _ k hk
  · intro c hc
    exact jsGet_mergeImported_other imported store merged c hm hc

/-- Witness for C6: `importTut` merged into `storeAB`; the untouched course is unchanged. -/
theorem import_merges_key_by_key_witness :
    decodeTut textTut = some importTut ∧ StoreWF importTut ∧
    "MAT137Y1" ∉ importTut.map Prod.fst ∧
    jsGet (importSelectedMeetings decodeTut (fun _ => 550) storeAB textTut).1 "MAT137Y1" =
      jsGet storeAB "MAT137Y1" :=
  ⟨by simp [decodeTut], by unfold StoreWF UniqueKeys; decide, by decide,
    (import_merges_key_by_key decodeTut (fun _ => 550) storeAB importTut textTut
      (by simp [decodeTut]) (by unfold StoreWF UniqueKeys; decide) (by decide)).2
      "MAT137Y1" (by decide)⟩

/-! ## Colour assignment -/

theorem slot_jsSet_same (co : ColorObj) (t col : String) (h : col ≠ "") :
    slot (jsSet co t col) t = some col := by
  unfold slot
  rw [jsGet_jsSet_same]
  simp [h]

theorem slot_jsSet_other (co : ColorObj) (t t2 col : String) (h : t ≠ t2) :
    slot (jsSet co t col) t2 = slot co t2 := by
  unfold slot
  rw [jsGet_jsSet_other co t t2 col h]

theorem entryColor_eq_slot (e : Entry) (t : String) :
    entryColor e t = slot ((colorObjOf e).getD []) t := by
  unfold entryColor
  cases colorObjOf e with
  | none => simp [slot, jsGet]
  | some co => rfl

theorem colorObjOf_jsSet (e : Entry) (co : ColorObj) :
    colorObjOf (jsSet e "_color" (Val.colors co)) = some co := by
  unfold colorObjOf
  rw [jsGet_jsSet_same]

theorem entryColor_jsSet (e : Entry) (co : ColorObj) (t : String) :
    entryColor (jsSet e "_color" (Val.colors co)) t = slot co t := by
  unfold entryColor
  rw [colorObjOf_jsSet]

theorem mem_getUsedColors (store : Store) (term x : String) (h : term ≠ "Y") :
    x ∈ getUsedColors store term ↔ UsedIn store term x := by
  unfold getUsedColors UsedIn
  rw [List.mem_flatMap]
  constructor
  · rintro ⟨p, hp, hx⟩
    refine ⟨p, hp, ?_⟩
    unfold usedOfEntry at hx
    unfold entryColor
    cases hc : colorObjOf p.2 with
    | none => simp [hc] at hx
    | some co =>
      simp only [hc, h, if_false, Option.mem_toList, Option.mem_def] at hx
      exact hx
  · rintro ⟨p, hp, hx⟩
    refine ⟨p, hp, ?_⟩
    unfold usedOfEntry
    unfold entryColor at hx
    cases hc : colorObjOf p.2 with
    | none => simp [hc] at hx
    | some co =>
      simp only [hc] at hx
      simp [h, hx]

theorem mem_getUsedColors_year (store : Store) (x : String) :
    x ∈ getUsedColors store "Y" ↔ UsedIn store "fall" x ∨ UsedIn store "winter" x := by
  unfold getUsedColors UsedIn
  rw [List.mem_flatMap]
  constructor
  · rintro ⟨p, hp, hx⟩
    unfold usedOfEntry at hx
    cases hc : colorObjOf p.2 with
    | none => simp [hc] at hx
    | some co =>
      simp only [hc, if_true, List.mem_append, Option.mem_toList, Option.mem_def] at hx
      rcases hx with hx | hx
      · exact Or.inl ⟨p, hp, by simp [entryColor, hc, hx]⟩
      · exact Or.inr ⟨p, hp, by simp [entryColor, hc, hx]⟩
  · rintro (⟨p, hp, hx⟩ | ⟨p, hp, hx⟩)
    · refine ⟨p, hp, ?_⟩
      unfold usedOfEntry
      unfold entryColor at hx
      cases hc : colorObjOf p.2 with
      | none => simp [hc] at hx
      | some co =>
        simp only [hc] at hx
        simp [hx]
    · refine ⟨p, hp, ?_⟩
      unfold usedOfEntry
      unfold entryColor at hx
      cases hc : colorObjOf p.2 with
      | none => simp [hc] at hx
      | some co =>
        simp only [hc] at hx
        simp [hx]

theorem getAvailableColor_some (store : Store) (term x : String) (r : Nat)
    (h : getAvailableColor store term r = some x) :
    x ∈ COURSE_COLORS ∧ x ∉ getUsedColors store term := by
  unfold getAvailableColor at h
  simp only at h
  split at h
  · have hm := List.getElem?_mem h
    rw [List.mem_filter] at hm
    refine ⟨hm.1, ?_⟩
    simpa using hm.2
  · exact Option.noConfusion h

theorem getAvailableColor_none_iff (store : Store) (term : String) (r : Nat) :
    getAvailableColor store term r = none ↔
      ∀ x ∈ COURSE_COLORS, x ∈ getUsedColors store term := by
  unfold getAvailableColor
  simp only
  constructor
  · intro h x hx
    by_contra hnot
    have hm : x ∈ COURSE_COLORS.filter (fun c => !((getUsedColors store term).contains c)) := by
      rw [List.mem_filter]
      exact ⟨hx, by simpa using hnot⟩
    have hpos := List.length_pos_of_mem hm
    rw [if_pos hpos] at h
    have hlt := Nat.mod_lt r hpos
    rw [List.getElem?_eq_getElem hlt] at h
    exact Option.noConfusion h
  · intro h
    have hnil : COURSE_COLORS.filter (fun c => !((getUsedColors store term).contains c)) = [] := by
      rw [List.filter_eq_nil_iff]
      intro x hx
      simpa using h x hx
    rw [hnil]
    simp

theorem mem_COURSE_COLORS_ne (x : String) (h : x ∈ COURSE_COLORS) :
    x ≠ "" ∧ x ≠ "#999999" := by
  simp only [COURSE_COLORS, List.mem_cons, List.mem_singleton, List.not_mem_nil, or_false] at h
  rcases h with h | h | h | h | h | h <;> subst h <;> decide

theorem pick_ne_empty (store : Store) (term : String) (r : Nat) :
    (getAvailableColor store term r).getD "#999999" ≠ "" := by
  cases h : getAvailableColor store term r with
  | none => decide
  | some x => exact (mem_COURSE_COLORS_ne x (getAvailableColor_some store term x r h).1).1

/-- The entry after `ensureCourseColor` holds a colour object in which the slots the call
looks at are set. -/
theorem ensureEntryColor_shape (store : Store) (e : Entry) (term sess : String) (r : Nat) :
    ∃ co, jsGet (ensureEntryColor store e term sess r) "_color" = some (Val.colors co) ∧
      (sess = "Y" → ¬ ((slot co "fall").isNone = true ∧ (slot co "winter").isNone = true)) ∧
      (sess ≠ "Y" → (slot co term).isNone = false) := by
  unfold ensureEntryColor
  simp only
  by_cases hs : sess = "Y"
  · rw [if_pos hs]
    by_cases hc : ((slot ((colorObjOf e).getD []) "fall").isNone &&
        (slot ((colorObjOf e).getD []) "winter").isNone) = true
    · rw [if_pos hc]
      refine ⟨_, jsGet_jsSet_same _ _ _, ?_, fun h => absurd hs h⟩
      intro _ hcon
      have hw := slot_jsSet_same
        (jsSet ((colorObjOf e).getD []) "fall" ((getAvailableColor store "Y" r).getD "#999999"))
        "winter" _ (pick_ne_empty store "Y" r)
      rw [hw] at hcon
      simp at hcon
    · rw [if_neg hc]
      refine ⟨_, jsGet_jsSet_same _ _ _, ?_, fun h => absurd hs h⟩
      intro _ hcon
      apply hc
      simp [hcon.1, hcon.2]
  · rw [if_neg hs]
    by_cases hc : (slot ((colorObjOf e).getD []) term).isNone = true
    · rw [if_pos hc]
      refine ⟨_, jsGet_jsSet_same _ _ _, fun h => absurd h hs, ?_⟩
      intro _
      rw [slot_jsSet_same _ _ _ (pick_ne_empty store term r)]
      rfl
    · rw [if_neg hc]
      refine ⟨_, jsGet_jsSet_same _ _ _, fun h => absurd h hs, ?_⟩
      intro _
      cases hsl : slot ((colorObjOf e).getD []) term with
      | none =>
        rw [hsl] at hc
        exact absurd rfl hc
      | some x => rfl

/-- On an entry of that shape `ensureCourseColor` writes nothing new. -/
theorem ensureEntryColor_fixed (store : Store) (e : Entry) (term sess : String) (r : Nat)
    (co : ColorObj) (hco : jsGet e "_color" = some (Val.colors co))
    (hy : sess = "Y" → ¬ ((slot co "fall").isNone = true ∧ (slot co "winter").isNone = true))
    (hn : sess ≠ "Y" → (slot co term).isNone = false) :
    ensureEntryColor store e term sess r = e := by
  have hobj : colorObjOf e = some co := by
    unfold colorObjOf
    rw [hco]
  unfold ensureEntryColor
  simp only [hobj, Option.getD_some]
  by_cases hs : sess = "Y"
  · simp only [hs, if_true]
    have hc : ¬ (((slot co "fall").isNone && (slot co "winter").isNone) = true) := by
      intro h
      rw [Bool.and_eq_true] at h
      exact hy hs h
    rw [if_neg hc]
    exact jsSet_of_get e "_color" _ hco
  · simp only [hs, if_false]
    have hc : ¬ ((slot co term).isNone = true) := by
      rw [hn hs]
      exact Bool.false_ne_true
    rw [if_neg hc]
    exact jsSet_of_get e "_color" _ hco

/-- A slot that is set keeps its value through `ensureCourseColor`. -/
theorem ensureEntryColor_keeps (store : Store) (e : Entry) (term sess : String) (r : Nat)
    (t col : String) (h : entryColor e t = some col) :
    entryColor (ensureEntryColor store e term sess r) t = some col := by
  rw [entryColor_eq_slot] at h
  unfold ensureEntryColor
  simp only
  by_cases hs : sess = "Y"
  · simp only [hs, if_true]
    by_cases hc : ((slot ((colorObjOf e).getD []) "fall").isNone &&
        (slot ((colorObjOf e).getD []) "winter").isNone) = true
    · rw [if_pos hc, entryColor_jsSet]
      rw [Bool.and_eq_true] at hc
      have h1 : "fall" ≠ t := by
        intro he
        rw [← he] at h
        rw [h] at hc
        simp at hc
      have h2 : "winter" ≠ t := by
        intro he
        rw [← he] at h
        rw [h] at hc
        simp at hc
      rw [slot_jsSet_other _ _ _ _ h2, slot_jsSet_other _ _ _ _ h1]
      exact h
    · rw [if_neg hc, entryColor_jsSet]
      exact h
  · simp only [hs, if_false]
    by_cases hc : (slot ((colorObjOf e).getD []) term).isNone = true
    · rw [if_pos hc, entryColor_jsSet]
      have h1 : term ≠ t := by
        intro he
        rw [← he] at h
        rw [h] at hc
        simp at hc
      rw [slot_jsSet_other _ _ _ _ h1]
      exact h
    · rw [if_neg hc, entryColor_jsSet]
      exact h

theorem ensureCourseColor_eq (store : Store) (c term sess : String) (r : Nat) (e : Entry)
    (h : jsGet store c = some e) :
    ensureCourseColor store c term sess r =
      some (jsSet store c (ensureEntryColor store e term sess r)) := by
  unfold ensureCourseColor
  rw [h]

/-- C7: `ensureCourseColor` is idempotent.  For a store that contains the course, any term,
session code and random draws, a second call with the same arguments returns the store
unchanged; and a colour slot of any course that was set before a call has the same value
after it. -/
theorem ensureCourseColor_idempotent (store : Store) (c term sess : String) (r r2 : Nat)
    (e : Entry) (hc : jsGet store c = some e) :
    ∃ s1, ensureCourseColor store c term sess r = some s1 ∧
      ensureCourseColor s1 c term sess r2 = some s1 ∧
      ∀ c2 e2 t col, jsGet store c2 = some e2 → entryColor e2 t = some col →
        ∃ e3, jsGet s1 c2 = some e3 ∧ entryColor e3 t = some col := by
  refine ⟨_, ensureCourseColor_eq store c term sess r e hc, ?_, ?_⟩
  · have hg : jsGet (jsSet store c (ensureEntryColor store e term sess r)) c =
        some (ensureEntryColor store e term sess r) := jsGet_jsSet_same _ _ _
    rw [ensureCourseColor_eq _ c term sess r2 _ hg]
    obtain ⟨co, hco, hy, hn⟩ := ensureEntryColor_shape store e term sess r
    rw [ensureEntryColor_fixed _ _ term sess r2 co hco hy hn]
    rw [jsSet_of_get _ c _ hg]
  · intro c2 e2 t col hc2 hcol
    by_cases hcc : c = c2
    · subst hcc
      rw [hc] at hc2
      have he : e = e2 := Option.some.inj hc2
      subst he
      exact ⟨_, jsGet_jsSet_same _ _ _, ensureEntryColor_keeps store e term sess r t col hcol⟩
    · refine ⟨e2, ?_, hcol⟩
      rw [jsGet_jsSet_other store c c2 _ hcc]
      exact hc2

/-- Witness for C7: the first course of `storeAB`, winter term, session `S`. -/
theorem ensureCourseColor_idempotent_witness :
    ∃ s1, ensureCourseColor storeAB "CSC108H1" "winter" "S" 4 = some s1 ∧
      ensureCourseColor s1 "CSC108H1" "winter" "S" 1 = some s1 :=
  match ensureCourseColor_idempotent storeAB "CSC108H1" "winter" "S" 4 1
      [("_color", Val.colors [("fall", "#992626")]),
       ("CSC108H1-LEC0101-fall-0", Val.meeting meetingA)] (by decide) with
  | ⟨s1, h1, h2, _⟩ => ⟨s1, h1, h2⟩

theorem ensureEntryColor_year_unset (store : Store) (e : Entry) (term : String) (r : Nat)
    (h1 : entryColor e "fall" = none) (h2 : entryColor e "winter" = none) :
    entryColor (ensureEntryColor store e term "Y" r) "fall" =
        some ((getAvailableColor store "Y" r).getD "#999999") ∧
      entryColor (ensureEntryColor store e term "Y" r) "winter" =
        some ((getAvailableColor store "Y" r).getD "#999999") := by
  rw [entryColor_eq_slot] at h1 h2
  have hc : ((slot ((colorObjOf e).getD []) "fall").isNone &&
      (slot ((colorObjOf e).getD []) "winter").isNone) = true := by
    rw [h1, h2]
    rfl
  unfold ensureEntryColor
  simp only [↓reduceIte, hc, entryColor_jsSet]
  constructor
  · rw [slot_jsSet_other _ "winter" "fall" _ (by decide)]
    exact slot_jsSet_same _ _ _ (pick_ne_empty store "Y" r)
  · exact slot_jsSet_same _ _ _ (pick_ne_empty store "Y" r)

theorem ensureEntryColor_other_unset (store : Store) (e : Entry) (term sess : String)
    (r : Nat) (hs : sess ≠ "Y") (h : entryColor e term = none) :
    entryColor (ensureEntryColor store e term sess r) term =
      some ((getAvailableColor store term r).getD "#999999") := by
  rw [entryColor_eq_slot] at h
  have hc : (slot ((colorObjOf e).getD []) term).isNone = true := by
    rw [h]
    rfl
  unfold ensureEntryColor
  simp only
  rw [if_neg hs, if_pos hc, entryColor_jsSet]
  exact slot_jsSet_same _ _ _ (pick_ne_empty store term r)

/-- C8, counterexample: a course whose fall slot is set and whose winter slot is not keeps
exactly that after `ensureCourseColor(courseCode, 'winter', 'Y')`. -/
theorem ensureCourseColor_year_keeps_lone_slot :
    (ensureCourseColor storeAB "CSC108H1" "winter" "Y" 0).map (fun s1 =>
        (jsGet s1 "CSC108H1").map (fun e1 =>
          (entryColor e1 "fall", entryColor e1 "winter"))) =
      some (some (some "#992626", none)) := by
  decide

/-- C8, amended: for a store that contains the course with its fall and winter slots both
unset, or both set to one colour, after `ensureCourseColor(courseCode, term, 'Y')` both
slots are set and the fall colour equals the winter colour, for every term and every random
draw. -/
theorem ensureCourseColor_year_shares_color (store : Store) (c term : String) (r : Nat)
    (e : Entry) (hc : jsGet store c = some e)
    (hslots : (entryColor e "fall" = none ∧ entryColor e "winter" = none) ∨
      ∃ col, entryColor e "fall" = some col ∧ entryColor e "winter" = some col) :
    ∃ s1 e1 col, ensureCourseColor store c term "Y" r = some s1 ∧
      jsGet s1 c = some e1 ∧
      entryColor e1 "fall" = some col ∧ entryColor e1 "winter" = some col := by
  rcases hslots with ⟨h1, h2⟩ | ⟨col, h1, h2⟩
  · obtain ⟨hf, hw⟩ := ensureEntryColor_year_unset store e term r h1 h2
    exact ⟨_, _, _, ensureCourseColor_eq store c term "Y" r e hc, jsGet_jsSet_same _ _ _, hf, hw⟩
  · exact ⟨_, _, col, ensureCourseColor_eq store c term "Y" r e hc, jsGet_jsSet_same _ _ _,
      ensureEntryColor_keeps store e term "Y" r "fall" col h1,
      ensureEntryColor_keeps store e term "Y" r "winter" col h2⟩

/-- Witness for C8 as amended: a freshly created entry for a full-year course. -/
theorem ensureCourseColor_year_shares_color_witness :
    ∃ s1 e1 col, ensureCourseColor (jsSet storeAB "ECO101Y1" []) "ECO101Y1" "fall" "Y" 2 =
        some s1 ∧
      jsGet s1 "ECO101Y1" = some e1 ∧
      entryColor e1 "fall" = some col ∧ entryColor e1 "winter" = some col :=
  ensureCourseColor_year_shares_color (jsSet storeAB "ECO101Y1" []) "ECO101Y1" "fall" 2 []
    (by decide) (Or.inl ⟨by decide, by decide⟩)

theorem pick_spec (store : Store) (term : String) (r : Nat) (P : String → Prop)
    (hP : ∀ x, x ∈ getUsedColors store term ↔ P x) :
    ((getAvailableColor store term r).getD "#999999" = "#999999" ↔
        ∀ x ∈ COURSE_COLORS, P x) ∧
      ((getAvailableColor store term r).getD "#999999" ≠ "#999999" →
        (getAvailableColor store term r).getD "#999999" ∈ COURSE_COLORS ∧
          ¬ P ((getAvailableColor store term r).getD "#999999")) := by
  cases h : getAvailableColor store term r with
  | none =>
    simp only [Option.getD_none, true_iff, ne_eq, not_true_eq_false, false_implies, and_true]
    intro x hx
    exact (hP x).1 ((getAvailableColor_none_iff store term r).1 h x hx)
  | some y =>
    obtain ⟨hy, hyu⟩ := getAvailableColor_some store term y r h
    simp only [Option.getD_some]
    constructor
    · constructor
      · intro he
        exact absurd he (mem_COURSE_COLORS_ne y hy).2
      · intro hall
        exact absurd ((hP y).2 (hall y hy)) hyu
    · intro _
      exact ⟨hy, fun hp => hyu ((hP y).2 hp)⟩

/-- A slot that is set after `ensureCourseColor` was set before, or was written by it. -/
theorem ensureEntryColor_new (store : Store) (e : Entry) (term sess : String) (r : Nat)
    (t x : String) (h : entryColor (ensureEntryColor store e term sess r) t = some x) :
    entryColor e t = some x ∨
      (sess ≠ "Y" ∧ t = term ∧ x = (getAvailableColor store term r).getD "#999999") ∨
      (sess = "Y" ∧ (t = "fall" ∨ t = "winter") ∧
        x = (getAvailableColor store "Y" r).getD "#999999") := by
  rw [entryColor_eq_slot e t]
  unfold ensureEntryColor at h
  simp only at h
  by_cases hs : sess = "Y"
  · rw [if_pos hs] at h
    by_cases hc : ((slot ((colorObjOf e).getD []) "fall").isNone &&
        (slot ((colorObjOf e).getD []) "winter").isNone) = true
    · rw [if_pos hc, entryColor_jsSet] at h
      by_cases hw : "winter" = t
      · subst hw
        rw [slot_jsSet_same _ _ _ (pick_ne_empty store "Y" r)] at h
        exact Or.inr (Or.inr ⟨hs, Or.inr rfl, (Option.some.inj h).symm⟩)
      · rw [slot_jsSet_other _ _ _ _ hw] at h
        by_cases hf : "fall" = t
        · subst hf
          rw [slot_jsSet_same _ _ _ (pick_ne_empty store "Y" r)] at h
          exact Or.inr (Or.inr ⟨hs, Or.inl rfl, (Option.some.inj h).symm⟩)
        · rw [slot_jsSet_other _ _ _ _ hf] at h
          exact Or.inl h
    · rw [if_neg hc, entryColor_jsSet] at h
      exact Or.inl h
  · rw [if_neg hs] at h
    by_cases hc : (slot ((colorObjOf e).getD []) term).isNone = true
    · rw [if_pos hc, entryColor_jsSet] at h
      by_cases ht : term = t
      · subst ht
        rw [slot_jsSet_same _ _ _ (pick_ne_empty store term r)] at h
        exact Or.inr (Or.inl ⟨hs, rfl, (Option.some.inj h).symm⟩)
      · rw [slot_jsSet_other _ _ _ _ ht] at h
        exact Or.inl h
    · rw [if_neg hc, entryColor_jsSet] at h
      exact Or.inl h

/-- After `ensureCourseColor` a palette colour that the course has in a term, while some
entry of the old store has it in the same term, is one the course had before. -/
theorem ensureEntryColor_no_new_clash (store : Store) (e : Entry) (term sess : String)
    (r : Nat) (hterm : term ≠ "Y") (t x : String) (hx : x ∈ COURSE_COLORS)
    (h : entryColor (ensureEntryColor store e term sess r) t = some x)
    (hused : UsedIn store t x) : entryColor e t = some x := by
  rcases ensureEntryColor_new store e term sess r t x h with h1 | ⟨_, ht, hp⟩ | ⟨_, ht, hp⟩
  · exact h1
  · exfalso
    subst ht
    have hspec := pick_spec store t r (UsedIn store t) (fun y => mem_getUsedColors store t y hterm)
    rw [← hp] at hspec
    exact (hspec.2 (mem_COURSE_COLORS_ne x hx).2).2 hused
  · exfalso
    have hspec := pick_spec store "Y" r
      (fun y => UsedIn store "fall" y ∨ UsedIn store "winter" y)
      (fun y => mem_getUsedColors_year store y)
    rw [← hp] at hspec
    have := (hspec.2 (mem_COURSE_COLORS_ne x hx).2).2
    rcases ht with ht | ht
    · subst ht
      exact this (Or.inl hused)
    · subst ht
      exact this (Or.inr hused)

/-- C9, counterexample: in `storeAB` the course CSC108H1 has its winter slot unset and the
palette colour `#F2B63D` is used in neither term, yet
`ensureCourseColor('CSC108H1', 'winter', 'Y')` leaves the winter slot unset, because the
fall slot of the course is set. -/
theorem ensureCourseColor_year_leaves_unset_slot :
    (jsGet storeAB "CSC108H1").map (fun e => entryColor e "winter") = some none ∧
      ("#F2B63D" ∈ COURSE_COLORS ∧ ¬ UsedIn storeAB "fall" "#F2B63D" ∧
        ¬ UsedIn storeAB "winter" "#F2B63D") ∧
      (ensureCourseColor storeAB "CSC108H1" "winter" "Y" 0).map (fun s1 =>
          (jsGet s1 "CSC108H1").map (fun e1 => entryColor e1 "winter")) = some (some none) := by
  refine ⟨by decide, ⟨by decide, ?_, ?_⟩, by decide⟩
  · unfold UsedIn
    decide
  · unfold UsedIn
    decide

/-- C9, amended: for a store that contains the course and a term other than the query
word `Y`: with a session other than `Y` (so `F` or `S`) and the term's slot unset,
`ensureCourseColor` sets that slot to a palette colour that no course has for the term,
and to gray `#999999` exactly when all six palette colours are used in the term; with
session `Y` and both slots unset the same holds with used meaning used in fall or in
winter; and no call makes two different courses share a palette colour in a term unless
they shared it before. -/
theorem ensureCourseColor_picks_unused_color (store : Store) (c term sess : String) (r : Nat)
    (e : Entry) (hc : jsGet store c = some e) (hterm : term ≠ "Y") :
    ∃ s1 e1, ensureCourseColor store c term sess r = some s1 ∧ jsGet s1 c = some e1 ∧
      (sess ≠ "Y" → entryColor e term = none →
        ∃ col, entryColor e1 term = some col ∧
          (col = "#999999" ↔ ∀ x ∈ COURSE_COLORS, UsedIn store term x) ∧
          (col ≠ "#999999" → col ∈ COURSE_COLORS ∧ ¬ UsedIn store term col)) ∧
      (sess = "Y" → entryColor e "fall" = none → entryColor e "winter" = none →
        ∃ col, entryColor e1 "fall" = some col ∧ entryColor e1 "winter" = some col ∧
          (col = "#999999" ↔
            ∀ x ∈ COURSE_COLORS, UsedIn store "fall" x ∨ UsedIn store "winter" x) ∧
          (col ≠ "#999999" →
            col ∈ COURSE_COLORS ∧ ¬ UsedIn store "fall" col ∧ ¬ UsedIn store "winter" col)) ∧
      (∀ c1 c2 t x e3 e4, c1 ≠ c2 → x ∈ COURSE_COLORS →
        jsGet s1 c1 = some e3 → entryColor e3 t = some x →
        jsGet s1 c2 = some e4 → entryColor e4 t = some x →
          ∃ e5 e6, jsGet store c1 = some e5 ∧ entryColor e5 t = some x ∧
            jsGet store c2 = some e6 ∧ entryColor e6 t = some x) := by
  refine ⟨_, _, ensureCourseColor_eq store c term sess r e hc, jsGet_jsSet_same _ _ _,
    ?_, ?_, ?_⟩
  · intro hs hunset
    refine ⟨_, ensureEntryColor_other_unset store e term sess r hs hunset, ?_⟩
    exact pick_spec store term r (UsedIn store term)
      (fun y => mem_getUsedColors store term y hterm)
  · intro hs h1 h2
    subst hs
    obtain ⟨hf, hw⟩ := ensureEntryColor_year_unset store e term r h1 h2
    refine ⟨_, hf, hw, ?_⟩
    have hspec := pick_spec store "Y" r
      (fun y => UsedIn store "fall" y ∨ UsedIn store "winter" y)
      (fun y => mem_getUsedColors_year store y)
    refine ⟨hspec.1, fun hne => ?_⟩
    obtain ⟨hm, hn⟩ := hspec.2 hne
    exact ⟨hm, fun hu => hn (Or.inl hu), fun hu => hn (Or.inr hu)⟩
  · intro c1 c2 t x e3 e4 hne hx h3 hx3 h4 hx4
    by_cases h1 : c = c1
    · subst h1
      rw [jsGet_jsSet_same] at h3
      rw [jsGet_jsSet_other store c c2 _ hne] at h4
      have he3 := Option.some.inj h3
      subst he3
      have hused : UsedIn store t x := ⟨(c2, e4), jsGet_mem store c2 e4 h4, hx4⟩
      exact ⟨e, e4, hc, ensureEntryColor_no_new_clash store e term sess r hterm t x hx hx3 hused,
        h4, hx4⟩
    · rw [jsGet_jsSet_other store c c1 _ h1] at h3
      by_cases h2 : c = c2
      · subst h2
        rw [jsGet_jsSet_same] at h4
        have he4 := Option.some.inj h4
        subst he4
        have hused : UsedIn store t x := ⟨(c1, e3), jsGet_mem store c1 e3 h3, hx3⟩
        exact ⟨e3, e, h3, hx3, hc,
          ensureEntryColor_no_new_clash store e term sess r hterm t x hx hx4 hused⟩
      · rw [jsGet_jsSet_other store c c2 _ h2] at h4
        exact ⟨e3, e4, h3, hx3, h4, hx4⟩

/-- Witness for C9 as amended: a new entry in `storeAB`, fall term, session `F`, random
draw 3. -/
theorem ensureCourseColor_picks_unused_color_witness :
    ∃ s1 e1, ensureCourseColor (jsSet storeAB "PHY131H1" []) "PHY131H1" "fall" "F" 3 = some s1 ∧
      jsGet s1 "PHY131H1" = some e1 ∧
      ∃ col, entryColor e1 "fall" = some col ∧
        (col ≠ "#999999" →
          col ∈ COURSE_COLORS ∧ ¬ UsedIn (jsSet storeAB "PHY131H1" []) "fall" col) :=
  match ensureCourseColor_picks_unused_color (jsSet storeAB "PHY131H1" []) "PHY131H1" "fall"
      "F" 3 [] (by decide) (by decide) with
  | ⟨s1, e1, h1, h2, h3, _, _⟩ =>
    match h3 (by decide) (by decide) with
    | ⟨col, h4, _, h6⟩ => ⟨s1, e1, h1, h2, col, h4, h6⟩

/-! ## The store under the click handlers -/

theorem meetingLineId_ne_color (c s t : String) (i : Nat) :
    meetingLineId c s t i ≠ "_color" := by
  intro h
  have h1 : (Char.ofNat 45) ∈ (meetingLineId c s t i).data := by
    simp [meetingLineId, String.data_append]
  rw [h] at h1
  revert h1
  decide

theorem jsGet_jsDelete_same {α : Type} (o : List (String × α)) (k : String) :
    jsGet (jsDelete o k) k = none := by
  rw [jsGet_eq_none_iff]
  intro h
  obtain ⟨q, hq, hk⟩ := List.mem_map.1 h
  unfold jsDelete at hq
  rw [List.mem_filter] at hq
  have := hq.2
  simp only [decide_eq_true_eq] at this
  exact this hk

theorem jsGet_jsDelete_other {α : Type} (o : List (String × α)) (k k2 : String)
    (h : k ≠ k2) : jsGet (jsDelete o k) k2 = jsGet o k2 := by
  induction o with
  | nil => rfl
  | cons p o ih =>
    obtain ⟨k', v'⟩ := p
    unfold jsDelete at ih ⊢
    by_cases h1 : k' = k
    · subst h1
      simp only [List.filter_cons, ne_eq, not_true_eq_false, decide_False, Bool.false_eq_true,
        if_false, jsGet, h]
      exact ih
    · by_cases h2 : k' = k2
      · subst h2
        simp [List.filter_cons, h1, jsGet]
      · simp only [List.filter_cons, ne_eq, h1, not_false_eq_true, decide_True, if_true, jsGet,
          h2, if_false]
        exact ih

theorem uniqueKeys_jsDelete {α : Type} (o : List (String × α)) (k : String)
    (hu : UniqueKeys o) : UniqueKeys (jsDelete o k) := by
  unfold UniqueKeys jsDelete at *
  exact List.Nodup.sublist (List.Sublist.map Prod.fst (List.filter_sublist o)) hu

theorem sameExcept_refl (c : String) (s : Store) : SameExcept c s s := fun _ _ => rfl

theorem sameExcept_trans (c : String) (s1 s2 s3 : Store) (h1 : SameExcept c s1 s2)
    (h2 : SameExcept c s2 s3) : SameExcept c s1 s3 :=
  fun c2 hc => (h2 c2 hc).trans (h1 c2 hc)

theorem sameExcept_jsSet (c : String) (s : Store) (e : Entry) :
    SameExcept c s (jsSet s c e) :=
  fun c2 hc => jsGet_jsSet_other s c c2 e (fun h => hc h.symm)

theorem sameExcept_initCourse (c : String) (s : Store) : SameExcept c s (initCourse s c) :=
  sameExcept_jsSet c s _

theorem initCourse_present (c : String) (s : Store) :
    ∃ e, jsGet (initCourse s c) c = some e := ⟨_, jsGet_jsSet_same _ _ _⟩

theorem uniqueKeys_initCourse (c : String) (s : Store) (hu : UniqueKeys s) :
    UniqueKeys (initCourse s c) := uniqueKeys_jsSet s c _ hu

theorem sameExcept_updateCourse (c : String) (s : Store) (f : Entry → Entry) :
    SameExcept c s (updateCourse s c f) := by
  unfold updateCourse
  cases h : jsGet s c with
  | none => exact sameExcept_refl c s
  | some e => exact sameExcept_jsSet c s _

theorem jsGet_updateCourse (c : String) (s : Store) (f : Entry → Entry) (e : Entry)
    (h : jsGet s c = some e) : jsGet (updateCourse s c f) c = some (f e) := by
  unfold updateCourse
  rw [h]
  exact jsGet_jsSet_same _ _ _

theorem uniqueKeys_updateCourse (c : String) (s : Store) (f : Entry → Entry)
    (hu : UniqueKeys s) : UniqueKeys (updateCourse s c f) := by
  unfold updateCourse
  cases h : jsGet s c with
  | none => exact hu
  | some e => exact uniqueKeys_jsSet s c _ hu

theorem ensureCourseColor_getD (s : Store) (c term sess : String) (r : Nat) (e : Entry)
    (h : jsGet s c = some e) :
    (ensureCourseColor s c term sess r).getD s =
      jsSet s c (ensureEntryColor s e term sess r) := by
  rw [ensureCourseColor_eq s c term sess r e h]
  rfl

theorem sameExcept_ensure (s : Store) (c term sess : String) (r : Nat) :
    SameExcept c s ((ensureCourseColor s c term sess r).getD s) := by
  cases h : jsGet s c with
  | none =>
    unfold ensureCourseColor
    rw [h]
    exact sameExcept_refl c s
  | some e =>
    rw [ensureCourseColor_getD s c term sess r e h]
    exact sameExcept_jsSet c s _

theorem ensure_present (s : Store) (c term sess : String) (r : Nat) (e : Entry)
    (h : jsGet s c = some e) :
    ∃ e2, jsGet ((ensureCourseColor s c term sess r).getD s) c = some e2 := by
  rw [ensureCourseColor_getD s c term sess r e h]
  exact ⟨_, jsGet_jsSet_same _ _ _⟩

theorem uniqueKeys_ensure (s : Store) (c term sess : String) (r : Nat) (hu : UniqueKeys s) :
    UniqueKeys ((ensureCourseColor s c term sess r).getD s) := by
  cases h : jsGet s c with
  | none =>
    unfold ensureCourseColor
    rw [h]
    exact hu
  | some e =>
    rw [ensureCourseColor_getD s c term sess r e h]
    exact uniqueKeys_jsSet s c _ hu

theorem sameExcept_cleanup (c : String) (s : Store) :
    SameExcept c s (cleanupCourseIfEmpty s c) := by
  unfold cleanupCourseIfEmpty
  simp only
  split
  · intro c2 hc
    exact jsGet_jsDelete_other s c c2 (fun h => hc h.symm)
  · exact sameExcept_refl c s

theorem cleanup_nonEmpty (c : String) (s : Store) (e : Entry)
    (h : jsGet (cleanupCourseIfEmpty s c) c = some e) : ∃ q ∈ e, q.1 ≠ "_color" := by
  unfold cleanupCourseIfEmpty at h
  simp only at h
  split at h
  · rw [jsGet_jsDelete_same] at h
    exact Option.noConfusion h
  · rename_i hlen
    rw [h] at hlen
    simp only [Option.getD_some] at hlen
    have hpos : 0 < (e.filter (fun p => decide (p.1 ≠ "_color"))).length := by omega
    obtain ⟨q, hq⟩ := List.exists_mem_of_length_pos hpos
    rw [List.mem_filter] at hq
    exact ⟨q, hq.1, by simpa using hq.2⟩

theorem uniqueKeys_cleanup (c : String) (s : Store) (hu : UniqueKeys s) :
    UniqueKeys (cleanupCourseIfEmpty s c) := by
  unfold cleanupCourseIfEmpty
  simp only
  split
  · exact uniqueKeys_jsDelete s c hu
  · exact hu

/-- A store that agrees with a good store except at `c`, and is good at `c`, is good. -/
theorem lookupNonEmpty_of_sameExcept (c : String) (s1 s2 : Store)
    (h1 : LookupNonEmpty s1) (hs : SameExcept c s1 s2)
    (hc : ∀ e, jsGet s2 c = some e → ∃ q ∈ e, q.1 ≠ "_color") : LookupNonEmpty s2 := by
  intro c2 e he
  by_cases h : c2 = c
  · subst h
    exact hc e he
  · rw [hs c2 h] at he
    exact h1 c2 e he

theorem entry_with_key_nonEmpty (e : Entry) (k : String) (v : Val) (hk : k ≠ "_color")
    (h : jsGet e k = some v) : ∃ q ∈ e, q.1 ≠ "_color" :=
  ⟨(k, v), jsGet_mem e k v h, hk⟩

theorem clickMeeting_inv (s : Store) (c sess sec : String) (line : MeetingLine)
    (sel : Bool) (r : Nat) (h : StoreInv s) :
    StoreInv (clickMeeting s c sess sec line sel r) := by
  obtain ⟨hu, hl⟩ := h
  obtain ⟨e1, he1⟩ := initCourse_present c s
  obtain ⟨e2, he2⟩ := ensure_present (initCourse s c) c line.term sess r e1 he1
  have hsame2 : SameExcept c s ((ensureCourseColor (initCourse s c) c line.term sess r).getD
      (initCourse s c)) :=
    sameExcept_trans c _ _ _ (sameExcept_initCourse c s) (sameExcept_ensure _ c line.term sess r)
  have hu2 := uniqueKeys_ensure (initCourse s c) c line.term sess r (uniqueKeys_initCourse c s hu)
  unfold clickMeeting
  simp only
  cases sel with
  | false =>
    simp only [Bool.not_false, if_true]
    refine ⟨uniqueKeys_updateCourse c _ _ hu2, ?_⟩
    apply lookupNonEmpty_of_sameExcept c s _ hl
      (sameExcept_trans c _ _ _ hsame2 (sameExcept_updateCourse c _ _))
    intro e he
    rw [jsGet_updateCourse c _ _ e2 he2] at he
    have he3 := Option.some.inj he
    subst he3
    exact entry_with_key_nonEmpty _ _ _ (meetingLineId_ne_color c sec line.term line.index)
      (jsGet_jsSet_same _ _ _)
  | true =>
    simp only [Bool.not_true, Bool.false_eq_true, if_false]
    refine ⟨uniqueKeys_cleanup c _ (uniqueKeys_updateCourse c _ _ hu2), ?_⟩
    apply lookupNonEmpty_of_sameExcept c s _ hl
      (sameExcept_trans c _ _ _
        (sameExcept_trans c _ _ _ hsame2 (sameExcept_updateCourse c _ _))
        (sameExcept_cleanup c _))
    intro e he
    exact cleanup_nonEmpty c _ e he

theorem sameExcept_selectLines (c sess sec : String) (rnd : Nat → Nat) (lines : List MeetingLine)
    (i : Nat) (s : Store) : SameExcept c s (selectLines c sess sec rnd i s lines) := by
  induction lines generalizing i s with
  | nil => exact sameExcept_refl c s
  | cons line rest ih =>
    unfold selectLines
    simp only
    exact sameExcept_trans c _ _ _
      (sameExcept_trans c _ _ _ (sameExcept_ensure s c line.term sess (rnd i))
        (sameExcept_updateCourse c _ _))
      (ih (i + 1) _)

theorem uniqueKeys_selectLines (c sess sec : String) (rnd : Nat → Nat)
    (lines : List MeetingLine) (i : Nat) (s : Store) (hu : UniqueKeys s) :
    UniqueKeys (selectLines c sess sec rnd i s lines) := by
  induction lines generalizing i s with
  | nil => exact hu
  | cons line rest ih =>
    unfold selectLines
    simp only
    exact ih (i + 1) _ (uniqueKeys_updateCourse c _ _ (uniqueKeys_ensure s c line.term sess _ hu))

theorem selectLines_nonEmpty (c sess sec : String) (rnd : Nat → Nat)
    (lines : List MeetingLine) (i : Nat) (s : Store) (hne : lines ≠ [])
    (hp : ∃ e, jsGet s c = some e) :
    ∃ e, jsGet (selectLines c sess sec rnd i s lines) c = some e ∧ ∃ q ∈ e, q.1 ≠ "_color" := by
  induction lines generalizing i s with
  | nil => exact absurd rfl hne
  | cons line rest ih =>
    obtain ⟨e, he⟩ := hp
    obtain ⟨e2, he2⟩ := ensure_present s c line.term sess (rnd i) e he
    have h3 := jsGet_updateCourse c _ (fun entry =>
      jsSet entry (meetingLineId c sec line.term line.index)
        (Val.meeting (lineMeeting sess sec line))) e2 he2
    unfold selectLines
    simp only
    cases rest with
    | nil =>
      refine ⟨_, h3, ?_⟩
      exact entry_with_key_nonEmpty _ _ _ (meetingLineId_ne_color c sec line.term line.index)
        (jsGet_jsSet_same _ _ _)
    | cons l2 rest2 =>
      exact ih (i + 1) _ (List.cons_ne_nil _ _) ⟨_, h3⟩

theorem sameExcept_deselectLines (c sec : String) (lines : List MeetingLine) (s : Store) :
    SameExcept c s (deselectLines c sec s lines) := by
  unfold deselectLines
  induction lines generalizing s with
  | nil => exact sameExcept_refl c s
  | cons line rest ih =>
    rw [List.foldl_cons]
    exact sameExcept_trans c _ _ _ (sameExcept_updateCourse c _ _) (ih _)

theorem uniqueKeys_deselectLines (c sec : String) (lines : List MeetingLine) (s : Store)
    (hu : UniqueKeys s) : UniqueKeys (deselectLines c sec s lines) := by
  unfold deselectLines
  induction lines generalizing s with
  | nil => exact hu
  | cons line rest ih =>
    rw [List.foldl_cons]
    exact ih _ (uniqueKeys_updateCourse c _ _ hu)

theorem clickSection_inv (s : Store) (c sess sec : String) (lines : List MeetingLine)
    (sel : Bool) (rnd : Nat → Nat) (h : StoreInv s) (hlines : sel = false → lines ≠ []) :
    StoreInv (clickSection s c sess sec lines sel rnd) := by
  obtain ⟨hu, hl⟩ := h
  unfold clickSection
  simp only
  cases sel with
  | false =>
    simp only [Bool.not_false, if_true]
    refine ⟨uniqueKeys_selectLines c sess sec rnd lines 0 _ (uniqueKeys_initCourse c s hu), ?_⟩
    apply lookupNonEmpty_of_sameExcept c s _ hl
      (sameExcept_trans c _ _ _ (sameExcept_initCourse c s)
        (sameExcept_selectLines c sess sec rnd lines 0 _))
    intro e he
    obtain ⟨e2, he2, hq⟩ := selectLines_nonEmpty c sess sec rnd lines 0 (initCourse s c)
      (hlines rfl) (initCourse_present c s)
    rw [he2] at he
    rw [← Option.some.inj he]
    exact hq
  | true =>
    simp only [Bool.not_true, Bool.false_eq_true, if_false]
    refine ⟨uniqueKeys_cleanup c _
      (uniqueKeys_deselectLines c sec lines _ (uniqueKeys_initCourse c s hu)), ?_⟩
    apply lookupNonEmpty_of_sameExcept c s _ hl
      (sameExcept_trans c _ _ _
        (sameExcept_trans c _ _ _ (sameExcept_initCourse c s)
          (sameExcept_deselectLines c sec lines _))
        (sameExcept_cleanup c _))
    intro e he
    exact cleanup_nonEmpty c _ e he

theorem clickRemove_inv (s : Store) (meetingId c : String) (h : StoreInv s) :
    StoreInv (clickRemove s meetingId c) := by
  obtain ⟨hu, hl⟩ := h
  unfold clickRemove
  cases hg : jsGet s c with
  | none => exact ⟨hu, hl⟩
  | some e =>
    simp only
    split
    · refine ⟨uniqueKeys_cleanup c _ (uniqueKeys_jsSet s c _ hu), ?_⟩
      apply lookupNonEmpty_of_sameExcept c s _ hl
        (sameExcept_trans c _ _ _ (sameExcept_jsSet c s _) (sameExcept_cleanup c _))
      intro e2 he2
      exact cleanup_nonEmpty c _ e2 he2
    · exact ⟨hu, hl⟩

theorem objectAssign_present (source target : Entry) (k : String)
    (h : ∃ v, jsGet target k = some v) : ∃ v, jsGet (objectAssign target source) k = some v := by
  induction source generalizing target with
  | nil => exact h
  | cons q rest ih =>
    rw [objectAssign_cons]
    apply ih
    by_cases hq : q.1 = "__proto__"
    · rw [if_pos hq]
      exact h
    · rw [if_neg hq]
      by_cases hk : q.1 = k
      · rw [hk]
        exact ⟨_, jsGet_jsSet_same _ _ _⟩
      · rw [jsGet_jsSet_other target q.1 k q.2 hk]
        exact h

theorem objectAssign_has_key (source target : Entry) (k : String) (v : Val)
    (h : (k, v) ∈ source) (hk : k ≠ "__proto__") :
    ∃ v2, jsGet (objectAssign target source) k = some v2 := by
  induction source generalizing target with
  | nil => simp at h
  | cons q rest ih =>
    rw [objectAssign_cons]
    rcases List.mem_cons.1 h with h1 | h1
    · subst h1
      rw [if_neg hk]
      exact objectAssign_present rest _ k ⟨_, jsGet_jsSet_same _ _ _⟩
    · exact ih _ h1

theorem uniqueKeys_mergeCourse (s s2 : Store) (c : String) (e : Entry)
    (h : mergeCourse s c e = some s2) (hu : UniqueKeys s) : UniqueKeys s2 := by
  unfold mergeCourse at h
  cases hg : jsGet s c with
  | some target =>
    simp only [hg, Option.some.injEq] at h
    rw [← h]
    exact uniqueKeys_jsSet s c _ hu
  | none =>
    simp only [hg] at h
    split at h
    · split at h
      · rw [← Option.some.inj h]
        exact hu
      · exact Option.noConfusion h
    · rw [← Option.some.inj h]
      exact uniqueKeys_jsSet _ c _ (uniqueKeys_jsSet s c _ hu)

theorem mergeCourse_inv (s s2 : Store) (c : String) (e : Entry) (h : StoreInv s)
    (hm : mergeCourse s c e = some s2)
    (he : (jsGet s c).isSome = true ∨
      (c ∉ prototypeKeys ∧ ∃ q ∈ e, q.1 ≠ "_color" ∧ q.1 ≠ "__proto__") ∨
      (c ∈ prototypeKeys ∧ e = [])) : StoreInv s2 := by
  obtain ⟨hu, hl⟩ := h
  refine ⟨uniqueKeys_mergeCourse s s2 c e hm hu, ?_⟩
  apply lookupNonEmpty_of_sameExcept c s s2 hl (mergeCourse_sameExcept s s2 c e hm)
  intro e2 he2
  cases hg : jsGet s c with
  | some target =>
    rw [mergeCourse_get s s2 c e hm (Or.inl (by rw [hg]; rfl)), hg] at he2
    rw [← Option.some.inj he2]
    obtain ⟨q, hq, hne⟩ := hl c target hg
    have hq2 : q = (q.1, q.2) := rfl
    rw [hq2] at hq
    have hpres : ∃ v, jsGet target q.1 = some v := by
      cases hgq : jsGet target q.1 with
      | some v => exact ⟨v, rfl⟩
      | none =>
        exfalso
        exact (jsGet_eq_none_iff target q.1).1 hgq (List.mem_map.2 ⟨(q.1, q.2), hq, rfl⟩)
    obtain ⟨v2, hv2⟩ := objectAssign_present e target q.1 hpres
    exact entry_with_key_nonEmpty _ q.1 v2 hne hv2
  | none =>
    rcases he with he | ⟨hplain, q, hq, hne, hnp⟩ | ⟨hin, hempty⟩
    · rw [hg] at he
      exact absurd he (by simp)
    · rw [mergeCourse_get s s2 c e hm (Or.inr hplain), hg] at he2
      rw [← Option.some.inj he2]
      obtain ⟨v2, hv2⟩ := objectAssign_has_key e [] q.1 q.2 hq hnp
      exact entry_with_key_nonEmpty _ q.1 v2 hne hv2
    · exfalso
      unfold mergeCourse at hm
      simp only [hg, hin, if_true, hempty, Option.some.injEq] at hm
      rw [← hm, hg] at he2
      exact Option.noConfusion he2

theorem mergeImported_inv (imported s s2 : Store) (h : StoreInv s)
    (hm : mergeImported s imported = some s2)
    (hi : ∀ p ∈ imported, (jsGet s p.1).isSome = true ∨
      (p.1 ∉ prototypeKeys ∧ ∃ q ∈ p.2, q.1 ≠ "_color" ∧ q.1 ≠ "__proto__") ∨
      (p.1 ∈ prototypeKeys ∧ p.2 = [])) : StoreInv s2 := by
  induction imported generalizing s with
  | nil =>
    have : s = s2 := Option.some.inj hm
    rw [← this]
    exact h
  | cons p rest ih =>
    obtain ⟨s1, h1, h2⟩ := mergeImported_cons_some s s2 p rest hm
    apply ih s1 (mergeCourse_inv s s1 p.1 p.2 h h1 (hi p (List.mem_cons_self _ _))) h2
    intro q hq
    rcases hi q (List.mem_cons_of_mem _ hq) with hq1 | hq1
    · exact Or.inl (mergeCourse_keeps_present s s1 p.1 q.1 p.2 h1 hq1)
    · exact Or.inr hq1

theorem initCourse_of_get (s : Store) (c : String) (e : Entry) (he : jsGet s c = some e) :
    initCourse s c = s := by
  unfold initCourse
  rw [he]
  exact jsSet_of_get s c e he

theorem clickSection_without_lines (s : Store) (c sess sec : String) (rnd : Nat → Nat)
    (e : Entry) (he : jsGet s c = some e) : clickSection s c sess sec [] false rnd = s := by
  unfold clickSection
  simp only [Bool.not_false, if_true, selectLines]
  exact initCourse_of_get s c e he

theorem step_inv (decode : String → Option Store) (clientWidth : String → ℚ) (s : Store)
    (ev : Event) (h : StoreInv s) (ha : Admissible decode s ev) :
    StoreInv (step decode clientWidth s ev) := by
  cases ev with
  | meetingClick c sess sec line sel r => exact clickMeeting_inv s c sess sec line sel r h
  | sectionClick c sess sec lines sel rnd =>
    by_cases hcase : sel = false ∧ lines = []
    · obtain ⟨hsel, hlines⟩ := hcase
      have hpres := ha hsel hlines
      subst hsel
      subst hlines
      cases hg : jsGet s c with
      | none =>
        rw [hg] at hpres
        exact absurd hpres (by simp)
      | some e =>
        simp only [step]
        rw [clickSection_without_lines s c sess sec rnd e hg]
        exact h
    · exact clickSection_inv s c sess sec lines sel rnd h
        (fun hsel hlines => hcase ⟨hsel, hlines⟩)
  | removeClick meetingId c => exact clickRemove_inv s meetingId c h
  | importClick text =>
    simp only [step]
    cases hd : decode text with
    | none =>
      rw [import_undecodable_keeps_store decode clientWidth s text hd]
      exact h
    | some imported =>
      have hok : ∀ p ∈ imported,
          (jsGet s p.1).isSome = true ∨ p.1 ∉ prototypeKeys ∨ p.2 = [] := by
        intro p hp
        rcases ha imported hd p hp with h1 | ⟨h1, _⟩ | ⟨_, h1⟩
        · exact Or.inl h1
        · exact Or.inr (Or.inl h1)
        · exact Or.inr (Or.inr h1)
      obtain ⟨merged, hm⟩ := mergeImported_ok imported s hok
      rw [importSelectedMeetings_store decode clientWidth s imported merged text hd hm]
      exact mergeImported_inv imported s merged h hm (ha imported hd)

theorem foldl_step_inv (decode : String → Option Store) (clientWidth : String → ℚ)
    (events : List Event) (s : Store) (h : StoreInv s)
    (ha : AdmissibleRun decode clientWidth s events) :
    StoreInv (events.foldl (step decode clientWidth) s) := by
  induction events generalizing s with
  | nil => exact h
  | cons ev rest ih =>
    rw [List.foldl_cons]
    exact ih _ (step_inv decode clientWidth s ev h ha.1) ha.2

/-- C10, counterexample: from the empty store, importing a text that decodes to a course
without meetings leaves that course entry in the store with no meeting. -/
theorem import_leaves_course_without_meeting :
    run decodeNoMeeting (fun _ => 550) [Event.importClick textNoMeeting] =
        [("PHY131H1", [])] ∧
      ¬ NoEmptyCourse (run decodeNoMeeting (fun _ => 550) [Event.importClick textNoMeeting]) := by
  have h : run decodeNoMeeting (fun _ => 550) [Event.importClick textNoMeeting] =
      [("PHY131H1", [])] := by decide
  refine ⟨h, ?_⟩
  rw [h]
  unfold NoEmptyCourse
  decide

/-- C10, amended: starting from the empty store, after any sequence of store operations
(selecting or deselecting a single meeting, toggling a section on or off, removing a
meeting with its remove control, importing) in which a section toggled on without any
meeting line belongs to a course already in the store, and every imported course is already
in the store, or has a code that names no inherited property and holds a key other than
`_color` and `__proto__`, or has a code that names an inherited property and holds nothing:
every course entry in the store has at least one selected meeting, and course codes stay
unique. -/
theorem courses_keep_a_meeting (decode : String → Option Store) (clientWidth : String → ℚ)
    (events : List Event) (ha : AdmissibleRun decode clientWidth [] events) :
    UniqueKeys (run decode clientWidth events) ∧ NoEmptyCourse (run decode clientWidth events) := by
  have hinv : StoreInv (run decode clientWidth events) := by
    apply foldl_step_inv decode clientWidth events [] _ ha
    refine ⟨List.nodup_nil, ?_⟩
    intro c e he
    simp [jsGet] at he
  refine ⟨hinv.1, ?_⟩
  intro p hp
  exact hinv.2 p.1 p.2 (jsGet_of_mem _ p.1 p.2 hinv.1 hp)

/-- Witness for C10 as amended: the three events of `eventsDemo`. -/
theorem courses_keep_a_meeting_witness :
    AdmissibleRun decodeAB (fun _ => 550) [] eventsDemo ∧
      NoEmptyCourse (run decodeAB (fun _ => 550) eventsDemo) :=
  have ha : AdmissibleRun decodeAB (fun _ => 550) [] eventsDemo := by
    refine ⟨?_, trivial, ?_, trivial⟩
    · intro _ hl
      exact absurd hl (by decide)
    · intro imported hd
      simp only [decodeAB, if_true, Option.some.injEq] at hd
      subst hd
      decide
  ⟨ha, (courses_keep_a_meeting decodeAB (fun _ => 550) eventsDemo ha).2⟩

/-- Toggling on a section that has no meeting lines creates the course entry (line 488)
and leaves it without any meeting: only the deselect branch calls `cleanupCourseIfEmpty`. -/
theorem toggle_on_section_without_lines (rnd : Nat → Nat) :
    clickSection [] "CSC108H1" "F" "LEC9101" [] false rnd = [("CSC108H1", [])] := by
  rfl

/-! ## Removing one meeting -/

theorem jsDelete_jsSet_same {α : Type} (o : List (String × α)) (k : String) (v : α) :
    jsDelete (jsSet o k v) k = jsDelete o k := by
  induction o with
  | nil => simp [jsSet, jsDelete]
  | cons p o ih =>
    obtain ⟨k', v'⟩ := p
    unfold jsDelete at ih ⊢
    by_cases h1 : k' = k
    · subst h1
      simp [jsSet, List.filter_cons]
    · simp only [jsSet, h1, if_false, List.filter_cons, ne_eq, not_false_eq_true, decide_True,
        if_true, ih]

theorem mem_jsDelete {α : Type} (o : List (String × α)) (k : String) (q : String × α) :
    q ∈ jsDelete o k ↔ q ∈ o ∧ q.1 ≠ k := by
  unfold jsDelete
  rw [List.mem_filter]
  simp

theorem entryColor_jsDelete (e : Entry) (k t : String) (hk : k ≠ "_color") :
    entryColor (jsDelete e k) t = entryColor e t := by
  unfold entryColor colorObjOf
  rw [jsGet_jsDelete_other e k "_color" hk]

theorem cleanup_of_no_meeting (s : Store) (c : String) (e : Entry)
    (hc : jsGet s c = some e) (h : ∀ q ∈ e, q.1 = "_color") :
    cleanupCourseIfEmpty s c = jsDelete s c := by
  unfold cleanupCourseIfEmpty
  simp only [hc, Option.getD_some]
  have hnil : e.filter (fun p => decide (p.1 ≠ "_color")) = [] := by
    rw [List.filter_eq_nil_iff]
    intro q hq
    simp [h q hq]
  rw [hnil]
  simp

theorem cleanup_of_meeting (s : Store) (c : String) (e : Entry)
    (hc : jsGet s c = some e) (h : ∃ q ∈ e, q.1 ≠ "_color") :
    cleanupCourseIfEmpty s c = s := by
  unfold cleanupCourseIfEmpty
  simp only [hc, Option.getD_some]
  obtain ⟨q, hq, hne⟩ := h
  have hm : q ∈ e.filter (fun p => decide (p.1 ≠ "_color")) := by
    rw [List.mem_filter]
    exact ⟨hq, by simpa using hne⟩
  have hpos := List.length_pos_of_mem hm
  rw [if_neg (by omega)]

/-- C11: for a store whose course `c` contains the meeting key `k`, removing `k` with the
remove control (delete, then `cleanupCourseIfEmpty`) deletes the whole course entry, colours
included, when `k` was the only meeting of the course; otherwise the entry stays in place
with `k` gone, every other key and the colours unchanged.  In both cases every other course
is unchanged. -/
theorem remove_deletes_meeting_or_course (store : Store) (c k : String) (e : Entry) (v : Val)
    (hc : jsGet store c = some e) (hk : jsGet e k = some v) (hmeeting : k ≠ "_color") :
    ((∀ q ∈ e, q.1 ≠ "_color" → q.1 = k) →
      clickRemove store k c = jsDelete store c ∧ jsGet (clickRemove store k c) c = none) ∧
    ((∃ q ∈ e, q.1 ≠ "_color" ∧ q.1 ≠ k) →
      clickRemove store k c = jsSet store c (jsDelete e k) ∧
      jsGet (clickRemove store k c) c = some (jsDelete e k) ∧
      jsGet (jsDelete e k) k = none ∧
      (∀ k2, k2 ≠ k → jsGet (jsDelete e k) k2 = jsGet e k2) ∧
      (∀ t, entryColor (jsDelete e k) t = entryColor e t)) ∧
    (∀ c2, c2 ≠ c → jsGet (clickRemove store k c) c2 = jsGet store c2) := by
  have hrun : clickRemove store k c =
      cleanupCourseIfEmpty (jsSet store c (jsDelete e k)) c := by
    unfold clickRemove
    simp [hc, hk]
  have hget : jsGet (jsSet store c (jsDelete e k)) c = some (jsDelete e k) :=
    jsGet_jsSet_same _ _ _
  refine ⟨?_, ?_, ?_⟩
  · intro honly
    have hclean := cleanup_of_no_meeting _ c _ hget (by
      intro q hq
      rw [mem_jsDelete] at hq
      by_contra hne
      exact hq.2 (honly q hq.1 hne))
    rw [hrun, hclean, jsDelete_jsSet_same]
    exact ⟨rfl, jsGet_jsDelete_same store c⟩
  · rintro ⟨q, hq, hne, hnk⟩
    have hclean := cleanup_of_meeting _ c _ hget
      ⟨q, (mem_jsDelete e k q).2 ⟨hq, hnk⟩, hne⟩
    rw [hrun, hclean]
    exact ⟨rfl, hget, jsGet_jsDelete_same e k,
      fun k2 h2 => jsGet_jsDelete_other e k k2 (fun h => h2 h.symm),
      fun t => entryColor_jsDelete e k t hmeeting⟩
  · intro c2 hc2
    rw [hrun]
    exact (sameExcept_trans c _ _ _ (sameExcept_jsSet c store _) (sameExcept_cleanup c _)) c2 hc2

/-- Witness for C11: removing the only meeting of the first course of `storeAB`. -/
theorem remove_deletes_meeting_or_course_witness :
    clickRemove storeAB "CSC108H1-LEC0101-fall-0" "CSC108H1" = jsDelete storeAB "CSC108H1" ∧
      jsGet (clickRemove storeAB "CSC108H1-LEC0101-fall-0" "CSC108H1") "CSC108H1" = none :=
  (remove_deletes_meeting_or_course storeAB "CSC108H1" "CSC108H1-LEC0101-fall-0"
    [("_color", Val.colors [("fall", "#992626")]),
     ("CSC108H1-LEC0101-fall-0", Val.meeting meetingA)] (Val.meeting meetingA)
    (by decide) (by decide) (by decide)).1 (by decide)

/-! ## Toggling a section -/

theorem jsGet_ensureEntryColor_other (s : Store) (e : Entry) (term sess : String) (r : Nat)
    (k : String) (hk : k ≠ "_color") :
    jsGet (ensureEntryColor s e term sess r) k = jsGet e k := by
  unfold ensureEntryColor
  simp only
  split <;> split <;> exact jsGet_jsSet_other e "_color" k _ (fun h => hk h.symm)

theorem entryColor_jsSet_meeting (e : Entry) (k t : String) (v : Val) (hk : k ≠ "_color") :
    entryColor (jsSet e k v) t = entryColor e t := by
  unfold entryColor colorObjOf
  rw [jsGet_jsSet_other e k "_color" v hk]

/-- One round of the select loop, seen from the course entry. -/
theorem selectLines_cons (c sess sec : String) (rnd : Nat → Nat) (i : Nat) (s : Store)
    (line : MeetingLine) (rest : List MeetingLine) (e : Entry) (he : jsGet s c = some e) :
    ∃ s2, selectLines c sess sec rnd i s (line :: rest) =
        selectLines c sess sec rnd (i + 1) s2 rest ∧
      jsGet s2 c = some (jsSet (ensureEntryColor s e line.term sess (rnd i))
        (lineId c sec line) (Val.meeting (lineMeeting sess sec line))) := by
  refine ⟨_, rfl, ?_⟩
  have h1 : jsGet ((ensureCourseColor s c line.term sess (rnd i)).getD s) c =
      some (ensureEntryColor s e line.term sess (rnd i)) := by
    rw [ensureCourseColor_getD s c line.term sess (rnd i) e he]
    exact jsGet_jsSet_same _ _ _
  exact jsGet_updateCourse c _ _ _ h1

theorem selectLines_keeps_key (c sess sec : String) (rnd : Nat → Nat)
    (lines : List MeetingLine) (i : Nat) (s : Store) (e : Entry) (k : String) (v : Val)
    (he : jsGet s c = some e) (hk : jsGet e k = some v) (hcol : k ≠ "_color")
    (hnot : k ∉ lines.map (lineId c sec)) :
    ∃ e2, jsGet (selectLines c sess sec rnd i s lines) c = some e2 ∧ jsGet e2 k = some v := by
  induction lines generalizing i s e with
  | nil => exact ⟨e, he, hk⟩
  | cons line rest ih =>
    simp only [List.map_cons, List.mem_cons, not_or] at hnot
    obtain ⟨s2, hs2, he2⟩ := selectLines_cons c sess sec rnd i s line rest e he
    rw [hs2]
    apply ih (i + 1) s2 _ he2 _ hnot.2
    rw [jsGet_jsSet_other _ _ k _ (fun h => hnot.1 h.symm),
      jsGet_ensureEntryColor_other s e line.term sess (rnd i) k hcol]
    exact hk

theorem selectLines_keeps_color (c sess sec : String) (rnd : Nat → Nat)
    (lines : List MeetingLine) (i : Nat) (s : Store) (e : Entry) (t col : String)
    (he : jsGet s c = some e) (hcol : entryColor e t = some col) :
    ∃ e2, jsGet (selectLines c sess sec rnd i s lines) c = some e2 ∧
      entryColor e2 t = some col := by
  induction lines generalizing i s e with
  | nil => exact ⟨e, he, hcol⟩
  | cons line rest ih =>
    obtain ⟨s2, hs2, he2⟩ := selectLines_cons c sess sec rnd i s line rest e he
    rw [hs2]
    apply ih (i + 1) s2 _ he2
    rw [entryColor_jsSet_meeting _ (lineId c sec line) t _
      (meetingLineId_ne_color c sec line.term line.index)]
    exact ensureEntryColor_keeps s e line.term sess (rnd i) t col hcol

theorem colorReady_round (s : Store) (e : Entry) (sess : String) (r : Nat)
    (line : MeetingLine) (h : ColorReady sess e line) :
    ∃ col, entryColor (ensureEntryColor s e line.term sess r) line.term = some col := by
  cases hset : entryColor e line.term with
  | some col => exact ⟨col, ensureEntryColor_keeps s e line.term sess r line.term col hset⟩
  | none =>
    by_cases hs : sess = "Y"
    · obtain ⟨hterm, hslots⟩ := h hs
      rw [hset] at hslots
      rcases hslots with hsome | ⟨hf, hw⟩
      · exact absurd hsome (by simp)
      · subst hs
        obtain ⟨hf2, hw2⟩ := ensureEntryColor_year_unset s e line.term r hf hw
        rcases hterm with ht | ht
        · rw [ht]
          rw [ht] at hf2
          exact ⟨_, hf2⟩
        · rw [ht]
          rw [ht] at hw2
          exact ⟨_, hw2⟩
    · exact ⟨_, ensureEntryColor_other_unset s e line.term sess r hs hset⟩

theorem colorReady_kept (s : Store) (e : Entry) (sess t k : String) (r : Nat) (v : Val)
    (line : MeetingLine) (hk : k ≠ "_color") (h : ColorReady sess e line) :
    ColorReady sess (jsSet (ensureEntryColor s e t sess r) k v) line := by
  intro hs
  obtain ⟨hterm, hslots⟩ := h hs
  refine ⟨hterm, Or.inl ?_⟩
  rw [entryColor_jsSet_meeting _ _ _ _ hk]
  rcases hslots with hsome | ⟨hf, hw⟩
  · cases hc : entryColor e line.term with
    | none =>
      rw [hc] at hsome
      exact absurd hsome (by simp)
    | some col =>
      rw [ensureEntryColor_keeps s e t sess r line.term col hc]
      rfl
  · subst hs
    obtain ⟨hf2, hw2⟩ := ensureEntryColor_year_unset s e t r hf hw
    rcases hterm with ht | ht
    · rw [ht, hf2]
      rfl
    · rw [ht, hw2]
      rfl

/-- After the select loop every line of the section has its id as a key, holding the
meeting of the section's last line with that id, and every line that is `ColorReady` has a
colour set for its term. -/
theorem selectLines_selects (c sess sec : String) (rnd : Nat → Nat)
    (lines : List MeetingLine) (i : Nat) (s : Store) (e : Entry)
    (he : jsGet s c = some e) :
    ∃ e2, jsGet (selectLines c sess sec rnd i s lines) c = some e2 ∧
      (∀ line ∈ lines, ∃ line2 ∈ lines, lineId c sec line2 = lineId c sec line ∧
        jsGet e2 (lineId c sec line) = some (Val.meeting (lineMeeting sess sec line2))) ∧
      (∀ line ∈ lines, ColorReady sess e line →
        ∃ col, entryColor e2 line.term = some col) := by
  induction lines generalizing i s e with
  | nil =>
    exact ⟨e, he, fun line hl => absurd hl (List.not_mem_nil line),
      fun line hl => absurd hl (List.not_mem_nil line)⟩
  | cons line rest ih =>
    obtain ⟨s2, hs2, he2⟩ := selectLines_cons c sess sec rnd i s line rest e he
    rw [hs2]
    have hne := meetingLineId_ne_color c sec line.term line.index
    obtain ⟨e3, he3, hkeys, hcols⟩ := ih (i + 1) s2 _ he2
    refine ⟨e3, he3, ?_, ?_⟩
    · intro l hl
      have hrest : ∀ l2 ∈ rest, ∃ line2 ∈ line :: rest,
          lineId c sec line2 = lineId c sec l2 ∧
            jsGet e3 (lineId c sec l2) = some (Val.meeting (lineMeeting sess sec line2)) := by
        intro l2 hl2
        obtain ⟨line2, h2, hid, hget⟩ := hkeys l2 hl2
        exact ⟨line2, List.mem_cons_of_mem _ h2, hid, hget⟩
      rcases List.mem_cons.1 hl with h1 | h1
      · subst h1
        by_cases hlater : lineId c sec l ∈ rest.map (lineId c sec)
        · obtain ⟨l2, hl2, hid2⟩ := List.mem_map.1 hlater
          obtain ⟨line2, h2, hid, hget⟩ := hrest l2 hl2
          rw [hid2] at hid hget
          exact ⟨line2, h2, hid, hget⟩
        · obtain ⟨e4, he4, hk4⟩ := selectLines_keeps_key c sess sec rnd rest (i + 1) s2 _
            (lineId c sec l) (Val.meeting (lineMeeting sess sec l)) he2
            (jsGet_jsSet_same _ _ _) hne hlater
          rw [he3] at he4
          rw [Option.some.inj he4]
          exact ⟨l, List.mem_cons_self _ _, rfl, hk4⟩
      · exact hrest l h1
    · intro l hl hready
      rcases List.mem_cons.1 hl with h1 | h1
      · subst h1
        obtain ⟨col, hcol⟩ := colorReady_round s e sess (rnd i) l hready
        obtain ⟨e5, he5, hc5⟩ := selectLines_keeps_color c sess sec rnd rest (i + 1) s2 _
          l.term col he2 (by
            rw [entryColor_jsSet_meeting _ (lineId c sec l) _ _ hne]
            exact hcol)
        rw [he3] at he5
        rw [Option.some.inj he5]
        exact ⟨col, hc5⟩
      · exact hcols l h1
          (colorReady_kept s e sess line.term (lineId c sec line) (rnd i) _ l hne hready)

/-- The entry of the course after the deselect loop: the keys of the lines are filtered
out, one line after the other. -/
theorem deselectLines_entry (c sec : String) (lines : List MeetingLine) (s : Store)
    (e : Entry) (he : jsGet s c = some e) :
    jsGet (deselectLines c sec s lines) c =
      some (lines.foldl (fun en line => jsDelete en (lineId c sec line)) e) := by
  unfold deselectLines
  induction lines generalizing s e with
  | nil => exact he
  | cons line rest ih =>
    rw [List.foldl_cons, List.foldl_cons]
    exact ih _ _ (jsGet_updateCourse c s _ e he)

theorem mem_foldl_jsDelete (c sec : String) (lines : List MeetingLine) (e : Entry)
    (q : String × Val) :
    q ∈ lines.foldl (fun en line => jsDelete en (lineId c sec line)) e ↔
      q ∈ e ∧ q.1 ∉ lines.map (lineId c sec) := by
  induction lines generalizing e with
  | nil => simp
  | cons line rest ih =>
    rw [List.foldl_cons, ih, mem_jsDelete]
    simp only [List.map_cons, List.mem_cons, not_or]
    constructor
    · rintro ⟨⟨h1, h2⟩, h3⟩
      exact ⟨h1, h2, h3⟩
    · rintro ⟨h1, h2, h3⟩
      exact ⟨⟨h1, h2⟩, h3⟩

theorem clickSection_off_entry (s : Store) (c sess sec : String) (lines : List MeetingLine)
    (rnd : Nat → Nat) (e : Entry) (he : jsGet s c = some e) :
    clickSection s c sess sec lines true rnd =
        cleanupCourseIfEmpty (deselectLines c sec s lines) c ∧
      jsGet (deselectLines c sec s lines) c =
        some (lines.foldl (fun en line => jsDelete en (lineId c sec line)) e) := by
  constructor
  · unfold clickSection
    simp only [Bool.not_true, Bool.false_eq_true, if_false]
    rw [initCourse_of_get s c e he]
  · exact deselectLines_entry c sec lines s e he

/-- C12, counterexample: the first course of `storeAB` has a fall colour only; toggling on
a section of it with session `Y` and one winter meeting stores the meeting, and the course
still has no winter colour. -/
theorem toggle_year_section_leaves_winter_uncoloured :
    (jsGet (clickSection storeAB "CSC108H1" "Y" "LEC0101" [lineWinter] false (fun _ => 0))
        "CSC108H1").map (fun e =>
          ((jsGet e (lineId "CSC108H1" "LEC0101" lineWinter)).isSome, entryColor e "winter")) =
      some (true, none) := by
  decide

/-- C12, amended: for every store, course, session and section: toggling the section on
makes every meeting of the section selected in the store: each line's id is a key that
holds the meeting of a line of the section with that id, which is the line itself when the
ids of the section differ pairwise.  Each line for which the session is not `Y`, or whose
term is fall or winter with that slot set already or the course without any fall or winter
colour, has a colour set for its term.  Toggling the same section again removes every
meeting of the section and deletes the course entry when the course has no other selected
meetings; other courses are unchanged throughout. -/
theorem toggle_section_selects_then_deselects (store : Store) (c sess sec : String)
    (lines : List MeetingLine) (rnd rnd2 : Nat → Nat) :
    ∃ e1, jsGet (clickSection store c sess sec lines false rnd) c = some e1 ∧
      (∀ line ∈ lines, ∃ line2 ∈ lines, lineId c sec line2 = lineId c sec line ∧
        jsGet e1 (lineId c sec line) = some (Val.meeting (lineMeeting sess sec line2))) ∧
      ((lines.map (lineId c sec)).Nodup → ∀ line ∈ lines,
        jsGet e1 (lineId c sec line) = some (Val.meeting (lineMeeting sess sec line))) ∧
      (∀ line ∈ lines, ColorReady sess ((jsGet store c).getD []) line →
        ∃ col, entryColor e1 line.term = some col) ∧
      (∀ e2, jsGet (clickSection (clickSection store c sess sec lines false rnd)
          c sess sec lines true rnd2) c = some e2 →
        ∀ line ∈ lines, jsGet e2 (lineId c sec line) = none) ∧
      ((∀ q ∈ e1, q.1 ≠ "_color" → q.1 ∈ lines.map (lineId c sec)) →
        jsGet (clickSection (clickSection store c sess sec lines false rnd)
          c sess sec lines true rnd2) c = none) ∧
      (∀ c2, c2 ≠ c →
        jsGet (clickSection store c sess sec lines false rnd) c2 = jsGet store c2 ∧
        jsGet (clickSection (clickSection store c sess sec lines false rnd)
          c sess sec lines true rnd2) c2 = jsGet store c2) := by
  have hfirst : clickSection store c sess sec lines false rnd =
      selectLines c sess sec rnd 0 (initCourse store c) lines := by
    unfold clickSection
    simp
  have hinit : jsGet (initCourse store c) c = some ((jsGet store c).getD []) :=
    jsGet_jsSet_same _ _ _
  obtain ⟨e1, he1, hkeys, hcols⟩ :=
    selectLines_selects c sess sec rnd lines 0 (initCourse store c) _ hinit
  rw [← hfirst] at he1
  obtain ⟨hsecond, hentry⟩ := clickSection_off_entry
    (clickSection store c sess sec lines false rnd) c sess sec lines rnd2 e1 he1
  have hgone : ∀ line ∈ lines,
      jsGet (lines.foldl (fun en l => jsDelete en (lineId c sec l)) e1) (lineId c sec line)
        = none := by
    intro line hl
    rw [jsGet_eq_none_iff]
    intro hmem
    obtain ⟨q, hq, hq1⟩ := List.mem_map.1 hmem
    have := ((mem_foldl_jsDelete c sec lines e1 q).1 hq).2
    rw [hq1] at this
    exact this (List.mem_map.2 ⟨line, hl, rfl⟩)
  have hsame1 : SameExcept c store (clickSection store c sess sec lines false rnd) := by
    rw [hfirst]
    exact sameExcept_trans c _ _ _ (sameExcept_initCourse c store)
      (sameExcept_selectLines c sess sec rnd lines 0 _)
  have hsame2 : SameExcept c (clickSection store c sess sec lines false rnd)
      (clickSection (clickSection store c sess sec lines false rnd) c sess sec lines true rnd2) := by
    rw [hsecond]
    exact sameExcept_trans c _ _ _ (sameExcept_deselectLines c sec lines _)
      (sameExcept_cleanup c _)
  refine ⟨e1, he1, hkeys, ?_, hcols, ?_, ?_, ?_⟩
  · intro hids line hl
    obtain ⟨line2, h2, hid, hget⟩ := hkeys line hl
    have heq : line2 = line := List.inj_on_of_nodup_map hids h2 hl hid
    rw [← heq]
    rw [← heq] at hget
    exact hget
  · intro e2 he2 line hl
    rw [hsecond] at he2
    by_cases hm : ∃ q ∈ lines.foldl (fun en l => jsDelete en (lineId c sec l)) e1,
        q.1 ≠ "_color"
    · rw [cleanup_of_meeting _ c _ hentry hm, hentry] at he2
      rw [← Option.some.inj he2]
      exact hgone line hl
    · have hall : ∀ q ∈ lines.foldl (fun en l => jsDelete en (lineId c sec l)) e1,
          q.1 = "_color" := by
        intro q hq
        by_contra hne
        exact hm ⟨q, hq, hne⟩
      rw [cleanup_of_no_meeting _ c _ hentry hall, jsGet_jsDelete_same] at he2
      exact Option.noConfusion he2
  · intro hother
    have hall : ∀ q ∈ lines.foldl (fun en l => jsDelete en (lineId c sec l)) e1,
        q.1 = "_color" := by
      intro q hq
      obtain ⟨hq1, hq2⟩ := (mem_foldl_jsDelete c sec lines e1 q).1 hq
      by_contra hne
      exact hq2 (hother q hq1 hne)
    rw [hsecond, cleanup_of_no_meeting _ c _ hentry hall]
    exact jsGet_jsDelete_same _ c
  · intro c2 hc2
    exact ⟨hsame1 c2 hc2, (hsame2 c2 hc2).trans (hsame1 c2 hc2)⟩

/-- Witness for C12 as amended: the two-line lecture section `linesLec` of a new course,
toggled on and off in `storeAB`. -/
theorem toggle_section_selects_then_deselects_witness :
    ∃ e1, jsGet (clickSection storeAB "ECO101Y1" "Y" "LEC0101" linesLec false (fun _ => 3))
        "ECO101Y1" = some e1 ∧
      (∀ line ∈ linesLec,
        jsGet e1 (lineId "ECO101Y1" "LEC0101" line) =
            some (Val.meeting (lineMeeting "Y" "LEC0101" line)) ∧
          ∃ col, entryColor e1 line.term = some col) ∧
      (∀ e2, jsGet (clickSection
          (clickSection storeAB "ECO101Y1" "Y" "LEC0101" linesLec false (fun _ => 3))
          "ECO101Y1" "Y" "LEC0101" linesLec true (fun _ => 0)) "ECO101Y1" = some e2 →
        ∀ line ∈ linesLec, jsGet e2 (lineId "ECO101Y1" "LEC0101" line) = none) :=
  match toggle_section_selects_then_deselects storeAB "ECO101Y1" "Y" "LEC0101" linesLec
      (fun _ => 3) (fun _ => 0) with
  | ⟨e1, h1, _, h3, h4, h5, _, _⟩ =>
    ⟨e1, h1,
      fun line hl => ⟨h3 (by decide) line hl, h4 line hl (by
        intro _
        simp only [linesLec, List.mem_cons, List.mem_singleton, List.not_mem_nil,
          or_false] at hl
        rcases hl with h | h <;> subst h <;>
          exact ⟨Or.inl rfl, Or.inr ⟨by decide, by decide⟩⟩)⟩,
      h5⟩

/-! ## The groups are the connected components of the overlap relation -/

theorem chained_addToGroups (blocks : List Block) (b : Block) (groups : List (List Block))
    (hb : b ∈ blocks) (hc : Chained blocks groups) :
    Chained blocks (addToGroups b groups) := by
  induction groups with
  | nil =>
    intro g hg
    simp only [addToGroups, List.mem_singleton] at hg
    subst hg
    constructor
    · intro x hx
      simp only [List.mem_singleton] at hx
      rw [hx]
      exact hb
    · intro x hx y hy
      simp only [List.mem_singleton] at hx hy
      rw [hx, hy]
      exact Relation.ReflTransGen.refl
  | cons g0 rest ih =>
    have hrest : Chained blocks rest := fun g hg => hc g (List.mem_cons_of_mem _ hg)
    obtain ⟨h0mem, h0reach⟩ := hc g0 (List.mem_cons_self _ _)
    by_cases hany : g0.any (fun z => isOverlap z b) = true
    · simp only [addToGroups, hany, if_true]
      intro g hg
      rcases List.mem_cons.1 hg with hg | hg
      · subst hg
        obtain ⟨z, hz, hzb⟩ := List.any_eq_true.1 hany
        have hstep : OverlapStep blocks z b := ⟨h0mem z hz, hb, hzb⟩
        have hback : OverlapStep blocks b z :=
          ⟨hb, h0mem z hz, by rw [isOverlap_comm]; exact hzb⟩
        constructor
        · intro x hx
          rcases List.mem_append.1 hx with h1 | h1
          · exact h0mem x h1
          · simp only [List.mem_singleton] at h1
            rw [h1]
            exact hb
        · intro x hx y hy
          rcases List.mem_append.1 hx with h1 | h1 <;>
            rcases List.mem_append.1 hy with h2 | h2
          · exact h0reach x h1 y h2
          · simp only [List.mem_singleton] at h2
            rw [h2]
            exact (h0reach x h1 z hz).tail hstep
          · simp only [List.mem_singleton] at h1
            rw [h1]
            exact Relation.ReflTransGen.head hback (h0reach z hz y h2)
          · simp only [List.mem_singleton] at h1 h2
            rw [h1, h2]
            exact Relation.ReflTransGen.refl
      · exact hrest g hg
    · rw [Bool.not_eq_true] at hany
      simp only [addToGroups, hany, Bool.false_eq_true, if_false]
      intro g hg
      rcases List.mem_cons.1 hg with hg | hg
      · subst hg
        exact ⟨h0mem, h0reach⟩
      · exact ih hrest g hg

theorem chained_groupFrom (blocks : List Block) (bs : List Block) (groups : List (List Block))
    (hbs : ∀ b ∈ bs, b ∈ blocks) (hc : Chained blocks groups) :
    Chained blocks (groupFrom groups bs) := by
  induction bs generalizing groups with
  | nil => simpa [groupFrom] using hc
  | cons b rest ih =>
    have h2 : (groupFrom groups (b :: rest)) = groupFrom (addToGroups b groups) rest := rfl
    rw [h2]
    exact ih _ (fun x hx => hbs x (List.mem_cons_of_mem _ hx))
      (chained_addToGroups blocks b groups (hbs b (List.mem_cons_self _ _)) hc)

theorem conflictGroups_chained (blocks : List Block) :
    Chained blocks (conflictGroups blocks) := by
  apply chained_groupFrom
  · intro b hb
    exact ((List.perm_insertionSort _ blocks).mem_iff).1 hb
  · intro g hg
    simp at hg

/-- In a duplicate-free list two blocks share a group exactly when an overlap chain joins
them. -/
theorem sameGroup_iff_reach (blocks : List Block) (hnd : blocks.Nodup) (a b : Block) :
    SameGroup (conflictGroups blocks) a b ↔ a ∈ blocks ∧ Reach blocks a b := by
  constructor
  · rintro ⟨g, hg, ha, hb⟩
    obtain ⟨hmem, hreach⟩ := conflictGroups_chained blocks g hg
    exact ⟨hmem a ha, hreach a ha b hb⟩
  · rintro ⟨ha, hreach⟩
    obtain ⟨g, hg, hag⟩ :=
      List.mem_flatten.1 (((conflictGroups_perm blocks).mem_iff).2 ha)
    refine ⟨g, hg, hag, ?_⟩
    induction hreach with
    | refl => exact hag
    | tail _ hstep ih =>
      obtain ⟨hu, hv, hov⟩ := hstep
      obtain ⟨g2, hg2, hu2, hv2⟩ := conflictGroups_same_group blocks _ _ hu hv hov
      have hgg : g = g2 := conflictGroups_group_unique blocks hnd g g2 hg hg2 _ ih hu2
      rw [hgg]
      exact hv2

theorem reach_perm (l1 l2 : List Block) (hp : l1.Perm l2) (a b : Block)
    (h : Reach l1 a b) : Reach l2 a b := by
  apply Relation.ReflTransGen.mono _ h
  rintro u v ⟨hu, hv, hov⟩
  exact ⟨(hp.mem_iff).1 hu, (hp.mem_iff).1 hv, hov⟩

/-- Two collection orders of one set of blocks give the same grouping relation. -/
theorem sameGroup_perm (l1 l2 : List Block) (hnd : l1.Nodup) (hp : l1.Perm l2) (a b : Block) :
    SameGroup (conflictGroups l1) a b ↔ SameGroup (conflictGroups l2) a b := by
  rw [sameGroup_iff_reach l1 hnd, sameGroup_iff_reach l2 ((hp.nodup_iff).1 hnd)]
  constructor
  · rintro ⟨ha, hr⟩
    exact ⟨(hp.mem_iff).1 ha, reach_perm l1 l2 hp a b hr⟩
  · rintro ⟨ha, hr⟩
    exact ⟨(hp.mem_iff).2 ha, reach_perm l2 l1 hp.symm a b hr⟩

/-- C13, refuted: there is no set of blocks (a duplicate-free list) with two collection
orders for which `conflictGroups` puts some pair of blocks into one group under one order
and not under the other. -/
theorem no_order_changes_the_groups :
    ¬ ∃ (blocks1 blocks2 : List Block) (a b : Block),
        blocks1.Nodup ∧ blocks1.Perm blocks2 ∧
          SameGroup (conflictGroups blocks1) a b ∧ ¬ SameGroup (conflictGroups blocks2) a b := by
  rintro ⟨blocks1, blocks2, a, b, hnd, hp, h1, h2⟩
  exact h2 ((sameGroup_perm blocks1 blocks2 hnd hp a b).1 h1)

/-- C13, amended: the grouping does not depend on the collection order.  For two valid
stores whose selected meetings of a term and weekday are the same set collected in two
orders, `renderSelectedMeetings` puts a pair of meetings into one conflict group under one
order exactly when it does under the other; and two meetings share a group exactly when a
chain of pairwise overlapping meetings of that day joins them, so the groups are the
classes of the transitive closure of the overlap relation. -/
theorem groups_are_overlap_components (store1 store2 : Store) (term : String) (d : Nat)
    (hwf : StoreWF store1) (hvalid1 : ValidMeetings store1) (hvalid2 : ValidMeetings store2)
    (hterm : term = "fall" ∨ term = "winter") (hd : d < 5)
    (hperm : (dayBlocks (allBlocks store1) term d).Perm (dayBlocks (allBlocks store2) term d)) :
    ∃ table1 table2, byTermAndDay (allBlocks store1) = some table1 ∧
      byTermAndDay (allBlocks store2) = some table2 ∧
      ∀ a b : Block,
        (SameGroup (conflictGroups (table1.bucket term d)) a b ↔
          SameGroup (conflictGroups (table2.bucket term d)) a b) ∧
        (SameGroup (conflictGroups (table1.bucket term d)) a b ↔
          a ∈ dayBlocks (allBlocks store1) term d ∧
            Reach (dayBlocks (allBlocks store1) term d) a b) := by
  obtain ⟨table1, ht1⟩ := byTermAndDay_ok store1 hvalid1
  obtain ⟨table2, ht2⟩ := byTermAndDay_ok store2 hvalid2
  have hb1 := byTermAndDay_bucket (allBlocks store1) table1 ht1 term hterm d hd
  have hb2 := byTermAndDay_bucket (allBlocks store2) table2 ht2 term hterm d hd
  have hnd := dayBlocks_nodup store1 hwf term d
  refine ⟨table1, table2, ht1, ht2, ?_⟩
  intro a b
  rw [hb1, hb2]
  exact ⟨sameGroup_perm _ _ hnd hperm a b, sameGroup_iff_reach _ hnd a b⟩

/-- Witness for C13 as amended: `storeAB` and the same courses inserted in the other order. -/
theorem groups_are_overlap_components_witness :
    (dayBlocks (allBlocks storeAB) "fall" 0).Perm (dayBlocks (allBlocks storeBA) "fall" 0) ∧
    ∃ table1 table2, byTermAndDay (allBlocks storeAB) = some table1 ∧
      byTermAndDay (allBlocks storeBA) = some table2 ∧
      (SameGroup (conflictGroups (table1.bucket "fall" 0)) blockA blockB ↔
        SameGroup (conflictGroups (table2.bucket "fall" 0)) blockA blockB) :=
  have hperm : (dayBlocks (allBlocks storeAB) "fall" 0).Perm
      (dayBlocks (allBlocks storeBA) "fall" 0) := by
    have h1 : dayBlocks (allBlocks storeAB) "fall" 0 = [blockA, blockB] := by decide
    have h2 : dayBlocks (allBlocks storeBA) "fall" 0 = [blockB, blockA] := by decide
    rw [h1, h2]
    exact List.Perm.swap blockB blockA []
  ⟨hperm,
    match groups_are_overlap_components storeAB storeBA "fall" 0
        (by unfold StoreWF UniqueKeys; decide) (by unfold ValidMeetings; decide)
        (by unfold ValidMeetings; decide) (Or.inl rfl) (by decide) hperm with
    | ⟨t1, t2, h1, h2, h3⟩ => ⟨t1, t2, h1, h2, (h3 blockA blockB).1⟩⟩

end Ttbp
